import Mathlib

/-!
# Verification of the SimilarityChecker core against its specification

This file gives a shallow embedding, in Lean 4, of the core algorithms of the
SimilarityChecker repository (cleansing pipeline, rolling-memory Levenshtein
distance, windowed similarity scorer, triangular pair indexing, overflow-checked
arithmetic), together with theorems settling the specification's claims.

Modelling conventions:
* Buffers (`char *` + length) are modelled as `List Char`.
* `size_t` is modelled as `Nat`; where machine wrap-around matters the code is
  embedded with explicit `% 2 ^ 64` / comparisons against `2 ^ 64 - 1`
  (an LP64 platform model, the configuration the repository targets).
* `double` values are modelled as exact rationals `ℚ`; the sentinel value
  `INFINITY` is modelled by `Option ℚ` with `none` as the sentinel, and the
  initialisation constant `DBL_MAX` by its exact rational value.
* Loops over indices become structural recursions or folds over index lists.
-/

namespace SimilarityChecker

/-! ## Reference definition: Levenshtein edit distance

Textbook recursive definition of the Levenshtein distance (minimum number of
single-character insertions, deletions and substitutions): peel the first
character of either string, taking the cheapest of delete / insert /
substitute-or-keep. This is the mathematical reference the embedded code is
compared against. -/

/-- Classic recursive Levenshtein distance between two character lists. -/
def lev : List Char → List Char → Nat
  | [], ys => ys.length
  | x :: xs, [] => (x :: xs).length
  | x :: xs, y :: ys =>
      min (min (lev xs (y :: ys) + 1) (lev (x :: xs) ys + 1))
        (lev xs ys + (if x = y then 0 else 1))

theorem lev_nil_left (ys : List Char) : lev [] ys = ys.length := by
  simp [lev]

theorem lev_nil_right (xs : List Char) : lev xs [] = xs.length := by
  cases xs <;> simp [lev]

theorem lev_cons_cons (x y : Char) (xs ys : List Char) :
    lev (x :: xs) (y :: ys) =
      min (min (lev xs (y :: ys) + 1) (lev (x :: xs) ys + 1))
        (lev xs ys + (if x = y then 0 else 1)) := by
  simp [lev]

/-- Bounded-measure auxiliary form of the snoc-snoc recurrence for `lev`. -/
theorem lev_snoc_aux (n : Nat) : ∀ (a b : Char) (xs ys : List Char),
    xs.length + ys.length ≤ n →
    lev (xs ++ [a]) (ys ++ [b]) =
      min (min (lev xs (ys ++ [b]) + 1) (lev (xs ++ [a]) ys + 1))
        (lev xs ys + (if a = b then 0 else 1)) := by
  induction n with
  | zero =>
      intro a b xs ys h
      have hx : xs = [] := by cases xs <;> simp_all
      have hy : ys = [] := by cases ys <;> simp_all
      subst hx; subst hy
      simp [lev]
  | succ n ih =>
      intro a b xs ys h
      cases xs with
      | nil =>
          cases ys with
          | nil => simp [lev]
          | cons y ys =>
              have ihy := ih a b [] ys (by simp at h ⊢; omega)
              simp only [List.nil_append, List.cons_append] at ihy ⊢
              rw [lev_cons_cons a y [] (ys ++ [b]), ihy, lev_cons_cons a y [] ys]
              rw [lev_nil_left, lev_nil_left, lev_nil_left, lev_nil_left]
              simp only [List.length_append, List.length_cons, List.length_nil]
              omega
      | cons x xs =>
          cases ys with
          | nil =>
              have ihx := ih a b xs [] (by simp at h ⊢; omega)
              simp only [List.nil_append, List.cons_append] at ihx ⊢
              rw [lev_cons_cons x b (xs ++ [a]) [], ihx, lev_cons_cons x b xs []]
              rw [lev_nil_right, lev_nil_right, lev_nil_right, lev_nil_right]
              simp only [List.length_append, List.length_cons, List.length_nil]
              omega
          | cons y ys =>
              have h' : xs.length + ys.length + 1 ≤ n := by
                simp only [List.length_cons] at h; omega
              have ih1 := ih a b xs (y :: ys) (by simp only [List.length_cons]; omega)
              have ih2 := ih a b (x :: xs) ys (by simp only [List.length_cons]; omega)
              have ih3 := ih a b xs ys (by omega)
              simp only [List.cons_append] at ih1 ih2 ⊢
              rw [lev_cons_cons x y (xs ++ [a]) (ys ++ [b])]
              rw [ih1, ih2, ih3]
              rw [lev_cons_cons x y xs (ys ++ [b]), lev_cons_cons x y (xs ++ [a]) ys,
                lev_cons_cons x y xs ys]
              generalize lev xs (y :: (ys ++ [b])) = A1
              generalize lev (x :: xs) (ys ++ [b]) = A2
              generalize lev xs (ys ++ [b]) = A3
              generalize lev (xs ++ [a]) (y :: ys) = A4
              generalize lev (x :: (xs ++ [a])) ys = A5
              generalize lev (xs ++ [a]) ys = A6
              generalize lev xs (y :: ys) = A7
              generalize lev (x :: xs) ys = A8
              generalize lev xs ys = A9
              generalize (if a = b then (0 : Nat) else 1) = C1
              generalize (if x = y then (0 : Nat) else 1) = C2
              simp only [← min_add_add_right]
              ring_nf
              ac_rfl

/-- The Levenshtein recurrence also holds when appending one character at the
end of each string.  This is the key fact that lets the forward
dynamic-programming loop of the code compute `lev` of growing prefixes. -/
theorem lev_snoc_snoc (a b : Char) (xs ys : List Char) :
    lev (xs ++ [a]) (ys ++ [b]) =
      min (min (lev xs (ys ++ [b]) + 1) (lev (xs ++ [a]) ys + 1))
        (lev xs ys + (if a = b then 0 else 1)) :=
  lev_snoc_aux (xs.length + ys.length) a b xs ys le_rfl

/-- `lev` vanishes exactly on identical strings. -/
theorem lev_eq_zero_iff (xs ys : List Char) : lev xs ys = 0 ↔ xs = ys := by
  induction xs generalizing ys with
  | nil =>
      rw [lev_nil_left]
      cases ys <;> simp
  | cons x xs ih =>
      cases ys with
      | nil => simp [lev_nil_right]
      | cons y ys =>
          rw [lev_cons_cons]
          constructor
          · intro h
            have h3 : lev xs ys + (if x = y then 0 else 1) = 0 := by omega
            by_cases hxy : x = y
            · simp [hxy] at h3
              rw [(ih ys).1 h3, hxy]
            · simp [hxy] at h3
          · intro h
            cases h
            have h0 : lev xs xs = 0 := (ih xs).2 rfl
            simp [h0]

/-- `lev` is bounded by the longer input's length. -/
theorem lev_le_max (xs ys : List Char) : lev xs ys ≤ max xs.length ys.length := by
  induction xs generalizing ys with
  | nil => rw [lev_nil_left]; omega
  | cons x xs ih =>
      cases ys with
      | nil => rw [lev_nil_right]; omega
      | cons y ys =>
          rw [lev_cons_cons]
          have h3 := ih ys
          simp only [List.length_cons]
          by_cases hxy : x = y <;> simp [hxy] <;> omega

/-! ## Embedding of `ScLevenshteinDistance` (src/Modules/ScDistances.c)

The C function keeps only two matrix rows: `MatrixTop` (previous row) and
`MatrixScratch` (row being computed).  The inner column loop walks `Str2`
with running values `TopLeftValue` and `LeftValue`; the outer row loop walks
`Str1`, seeding `TopLeftValue = RowIndexMinus1` and
`LeftValue = RowIndexMinus1 + 1` and feeding the freshly written scratch row
back in as the next top row. -/

/-- Inner column loop of `ScLevenshteinDistance`: one row update.  `x` is the
current `Str1` character, the first list the remaining `Str2` characters, the
second the corresponding entries of `MatrixTop`. -/
def scLevRow (x : Char) : List Char → List Nat → Nat → Nat → List Nat
  | y :: ys, top :: tops, topLeft, left =>
      let cur0 := min top left
      let cur := if topLeft ≤ cur0 then (if x ≠ y then topLeft + 1 else topLeft)
                 else cur0 + 1
      cur :: scLevRow x ys tops top cur
  | _, _, _, _ => []

/-- Outer row loop of `ScLevenshteinDistance`: the `Nat` argument is
`RowIndexMinus1`, the list argument the current `MatrixTop` contents. -/
def scLevRows (s2 : List Char) : List Char → Nat → List Nat → List Nat
  | [], _, top => top
  | x :: s1, i, top => scLevRows s2 s1 (i + 1) (scLevRow x s2 top i (i + 1))

/-- The initial top row written by `ScLevenshteinSwapInitialise`
(src/EntryPoints/ScCommon.c): entry `j` holds `j + 1`. -/
def scInitRow (n : Nat) : List Nat := (List.range n).map (· + 1)

/-- `ScLevenshteinDistance(MatrixTop, MatrixScratch, Str1, len1, Str2, len2)`:
run the row loop and read entry `Str2Length - 1` of the final row. -/
def ScLevenshteinDistance (matrixTop : List Nat) (s1 s2 : List Char) : Nat :=
  (scLevRows s2 s1 0 matrixTop).getD (s2.length - 1) 0

/-- Specification row: the Levenshtein matrix row for prefix `p` of `Str1`,
listing `lev p (u ++ take j ys)` for the successive nonempty extensions of the
already-consumed `Str2` prefix `u`. -/
def levRow (p : List Char) : List Char → List Char → List Nat
  | _, [] => []
  | u, y :: ys => lev p (u ++ [y]) :: levRow p (u ++ [y]) ys

/-- The branchy update of the C inner loop (diagonal preferred on ties) equals
the textbook three-way minimum. -/
theorem scLevStep_eq (x y : Char) (top left topLeft : Nat) :
    (if topLeft ≤ min top left then (if x ≠ y then topLeft + 1 else topLeft)
     else min top left + 1) =
      min (min (top + 1) (left + 1)) (topLeft + if x = y then 0 else 1) := by
  by_cases hc : topLeft ≤ min top left
  · rw [if_pos hc]
    by_cases h : x = y
    · rw [if_neg (by simp [h]), if_pos h]
      omega
    · rw [if_pos h, if_neg h]
      omega
  · rw [if_neg hc]
    by_cases h : x = y
    · rw [if_pos h]; omega
    · rw [if_neg h]; omega

/-- The inner column loop maps the matrix row for prefix `p` to the matrix row
for prefix `p ++ [x]`. -/
theorem scLevRow_spec (x : Char) (p : List Char) : ∀ (ys u : List Char),
    scLevRow x ys (levRow p u ys) (lev p u) (lev (p ++ [x]) u) =
      levRow (p ++ [x]) u ys := by
  intro ys
  induction ys with
  | nil => intro u; simp [levRow, scLevRow]
  | cons y ys ih =>
      intro u
      have hcur : (if lev p u ≤ min (lev p (u ++ [y])) (lev (p ++ [x]) u) then
            (if x ≠ y then lev p u + 1 else lev p u)
          else min (lev p (u ++ [y])) (lev (p ++ [x]) u) + 1) =
          lev (p ++ [x]) (u ++ [y]) := by
        rw [scLevStep_eq, lev_snoc_snoc]
      simp only [levRow, scLevRow]
      rw [hcur, ih (u ++ [y])]

/-- The outer row loop turns the matrix row for prefix `p` into the matrix row
for `p ++ s1rem`, starting from row index `p.length`. -/
theorem scLevRows_spec (s2 : List Char) : ∀ (s1rem p : List Char),
    scLevRows s2 s1rem p.length (levRow p [] s2) = levRow (p ++ s1rem) [] s2 := by
  intro s1rem
  induction s1rem with
  | nil => intro p; simp [scLevRows]
  | cons x rest ih =>
      intro p
      rw [scLevRows]
      have h1 : lev p [] = p.length := lev_nil_right p
      have h2 : lev (p ++ [x]) [] = p.length + 1 := by
        rw [lev_nil_right]; simp
      have hrow := scLevRow_spec x p s2 []
      rw [h1, h2] at hrow
      rw [hrow]
      have := ih (p ++ [x])
      simp only [List.length_append, List.length_cons, List.length_nil] at this
      rw [this]
      simp

/-- The row of the empty prefix is `u.length + 1, u.length + 2, …`. -/
theorem levRow_nil : ∀ (ys u : List Char),
    levRow [] u ys = (List.range ys.length).map (fun k => u.length + k + 1) := by
  intro ys
  induction ys with
  | nil => intro u; simp [levRow]
  | cons y ys ih =>
      intro u
      rw [levRow, ih (u ++ [y]), lev_nil_left]
      simp only [List.length_cons]
      rw [List.range_succ_eq_map, List.map_cons, List.map_map]
      congr 1
      · simp
      · refine List.map_congr_left ?_
        intro a _
        simp [Function.comp]
        omega

/-- The caller-initialised `MatrixTop` of the repository is exactly the matrix
row of the empty `Str1` prefix. -/
theorem scInitRow_eq_levRow (s2 : List Char) :
    scInitRow s2.length = levRow [] [] s2 := by
  rw [levRow_nil s2 [], scInitRow]
  simp

/-- Reading the last entry of a specification row yields the full distance. -/
theorem levRow_getD_last : ∀ (ys u p : List Char), ys ≠ [] →
    (levRow p u ys).getD (ys.length - 1) 0 = lev p (u ++ ys) := by
  intro ys
  induction ys with
  | nil => intro u p h; simp at h
  | cons y ys ih =>
      intro u p _
      cases ys with
      | nil => simp [levRow]
      | cons y' ys' =>
          rw [levRow]
          have hlen : (y :: y' :: ys').length - 1 = (y' :: ys').length - 1 + 1 := by
            simp
          rw [hlen, List.getD_cons_succ, ih (u ++ [y]) p (by simp)]
          simp

/-- With the caller-supplied initial row, the rolling-row loop computes the
Levenshtein distance of the two inputs (`Str2` nonempty). -/
theorem scLevenshteinDistance_eq_lev (s1 s2 : List Char) (h2 : s2 ≠ []) :
    ScLevenshteinDistance (scInitRow s2.length) s1 s2 = lev s1 s2 := by
  have hs := scLevRows_spec s2 s1 []
  simp only [List.length_nil, List.nil_append] at hs
  rw [ScLevenshteinDistance, scInitRow_eq_levRow, hs]
  have hl := levRow_getD_last s2 [] s1 h2
  simp only [List.nil_append] at hl
  exact hl

/-- **C1.** For every pair of non-empty byte strings `s1`, `s2`, with the
input row `MatrixTop` initialised to `1, 2, …, len(s2)`,
`ScLevenshteinDistance` returns exactly the Levenshtein edit distance between
`s1` and `s2`; consequently the result is `0` iff `s1` and `s2` are
byte-identical, is at most `max(len(s1), len(s2))`, and in particular
`distance("Test","Toast") = 2`, `distance("House","Mouse") = 1`,
`distance("Claus","clause") = 2`, `distance("1234","5678") = 4`. -/
theorem claim_C1_levenshtein_correct :
    (∀ s1 s2 : List Char, s1 ≠ [] → s2 ≠ [] →
        ScLevenshteinDistance (scInitRow s2.length) s1 s2 = lev s1 s2) ∧
    (∀ s1 s2 : List Char, s1 ≠ [] → s2 ≠ [] →
        (ScLevenshteinDistance (scInitRow s2.length) s1 s2 = 0 ↔ s1 = s2)) ∧
    (∀ s1 s2 : List Char, s1 ≠ [] → s2 ≠ [] →
        ScLevenshteinDistance (scInitRow s2.length) s1 s2 ≤
          max s1.length s2.length) ∧
    ScLevenshteinDistance (scInitRow 5) "Test".toList "Toast".toList = 2 ∧
    ScLevenshteinDistance (scInitRow 5) "House".toList "Mouse".toList = 1 ∧
    ScLevenshteinDistance (scInitRow 6) "Claus".toList "clause".toList = 2 ∧
    ScLevenshteinDistance (scInitRow 4) "1234".toList "5678".toList = 4 := by
  refine ⟨?_, ?_, ?_, by decide, by decide, by decide, by decide⟩
  · intro s1 s2 _ h2
    exact scLevenshteinDistance_eq_lev s1 s2 h2
  · intro s1 s2 _ h2
    rw [scLevenshteinDistance_eq_lev s1 s2 h2]
    exact lev_eq_zero_iff s1 s2
  · intro s1 s2 _ h2
    rw [scLevenshteinDistance_eq_lev s1 s2 h2]
    exact lev_le_max s1 s2

/-- Witness for C1 at a concrete input. -/
theorem claim_C1_levenshtein_correct_witness :
    ScLevenshteinDistance (scInitRow 2) ['a'] ['a', 'b'] = lev ['a'] ['a', 'b'] :=
  claim_C1_levenshtein_correct.1 ['a'] ['a', 'b'] (by decide) (by decide)

/-! ## Embedding of `ScLevenshteinSwap` (src/EntryPoints/ScCommon.c)

A cleansed file is modelled by its line table: a `List (List Char)` (the
`Lines` spans of `sc_str_lines_info_t`; the raw buffer and `ShorterLen` are
not read by the scoring loop).  `double` scores are modelled as exact `ℚ`
(`DBL_MAX` by its exact value, `INFINITY` by `Option.none`), `size_t` by `Nat`
with wrap-around modelled explicitly at the one unchecked addition. -/

/-- `SC_MAX_LINE_LENGTH` (src/EntryPoints/ScCommon.h). -/
def SC_MAX_LINE_LENGTH : Nat := 512

/-- `SIZE_MAX` for the LP64 platform model. -/
def scSizeMax : Nat := 2 ^ 64 - 1

/-- The exact rational value of IEEE-754 `DBL_MAX`, the initial `BestScore`. -/
def scDblMax : ℚ := 2 ^ 1024 - 2 ^ 971

/-- `mScLevenshteinMatrixInit` as written by `ScLevenshteinSwapInitialise`:
entry `j` holds `j + 1`, for `SC_MAX_LINE_LENGTH` entries. -/
def mScLevenshteinMatrixInit : List Nat := scInitRow SC_MAX_LINE_LENGTH

/-- The distance call of the scorer's inner loop:
`ScLevenshteinDistance(mScLevenshteinMatrixInit, MatrixScratch, line1, …)`. -/
def scLineDistance (a b : List Char) : Nat :=
  ScLevenshteinDistance mScLevenshteinMatrixInit a b

/-- `CurLineScore`: `0` when the distance is `0`, else
`(double) Distance / (double) MatchLengthTmp`. -/
def scLineScore (dist mlen : Nat) : ℚ :=
  if dist = 0 then 0 else (dist : ℚ) / (mlen : ℚ)

/-- The body of the candidate loop of `ScLevenshteinSwap`: fold state is
`(BestScore, BestMatch, MatchLength)`, updated whenever the stored score is
strictly greater than the candidate's score. -/
def scSwapLineStep (anchor : List Char) (l2 : List (List Char))
    (st : ℚ × Nat × Nat) (j : Nat) : ℚ × Nat × Nat :=
  let line2 := l2.getD j []
  let dist := scLineDistance anchor line2
  let mlenTmp := max anchor.length line2.length
  let cur := scLineScore dist mlenTmp
  if st.1 > cur then (cur, dist, mlenTmp) else st

/-- The candidate loop over the window indices, started from
`(DBL_MAX, SIZE_MAX, 1)` as in the C code. -/
def scSwapLine (anchor : List Char) (l2 : List (List Char))
    (idxs : List Nat) : ℚ × Nat × Nat :=
  idxs.foldl (scSwapLineStep anchor l2) (scDblMax, scSizeMax, 1)

/-- The window `[StartIndex, TopIndex)` of target-line indices examined for
anchor index `i`, exactly as computed in the C code. -/
def scWindow (numLines2 swapR i : Nat) : List Nat :=
  let startIdx := if i > swapR then i - swapR else 0
  let topIdx := if numLines2 - i > swapR then i + swapR + 1 else numLines2
  List.range' startIdx (topIdx - startIdx)

/-- The anchor loop of `ScLevenshteinSwap`, accumulating `TotalDiff` (with
`size_t` wrap-around) and `TotalLength` (checked via `ScSafeAddSize`, early
`INFINITY` return on overflow). -/
def scSwapLoop (l1 l2 : List (List Char)) (swapR : Nat) :
    List Nat → Nat → Nat → Option (Nat × Nat)
  | [], totalDiff, totalLength => some (totalDiff, totalLength)
  | i :: rest, totalDiff, totalLength =>
      let best := scSwapLine (l1.getD i []) l2 (scWindow l2.length swapR i)
      if totalLength + best.2.2 > scSizeMax then none
      else
        scSwapLoop l1 l2 swapR rest ((totalDiff + best.2.1) % 2 ^ 64)
          (totalLength + best.2.2)

/-- Direction normalisation of `ScLevenshteinSwap`: the file with strictly
more lines becomes the target (`LinesInfo2`), the other the anchor. -/
def scAnchorPair (f1 f2 : List (List Char)) :
    List (List Char) × List (List Char) :=
  if f1.length > f2.length then (f2, f1) else (f1, f2)

/-- `ScLevenshteinSwap(File1, File2, NumLinesSwap)`: `none` models the
`INFINITY` sentinel; otherwise `1 - TotalDiff / TotalLength`. -/
def ScLevenshteinSwap (f1 f2 : List (List Char)) (swapR : Nat) : Option ℚ :=
  let pr := scAnchorPair f1 f2
  match scSwapLoop pr.1 pr.2 swapR (List.range pr.1.length) 0 0 with
  | none => none
  | some (d, len) => some (1 - (d : ℚ) / (len : ℚ))

/-- Normalised cost of candidate `j` for a given anchor line (reading of the
inner-loop body). -/
def scCandCost (anchor : List Char) (l2 : List (List Char)) (j : Nat) : ℚ :=
  scLineScore (scLineDistance anchor (l2.getD j []))
    (max anchor.length (l2.getD j []).length)

/-- Raw distance of candidate `j` for a given anchor line. -/
def scCandDist (anchor : List Char) (l2 : List (List Char)) (j : Nat) : Nat :=
  scLineDistance anchor (l2.getD j [])

/-- Match length (`max` of the two line lengths) of candidate `j`. -/
def scCandLen (anchor : List Char) (l2 : List (List Char)) (j : Nat) : Nat :=
  max anchor.length (l2.getD j []).length

/-- Best raw distance retained for anchor index `i`. -/
def scBestDist (l1 l2 : List (List Char)) (swapR i : Nat) : Nat :=
  (scSwapLine (l1.getD i []) l2 (scWindow l2.length swapR i)).2.1

/-- Best match length retained for anchor index `i`. -/
def scBestLen (l1 l2 : List (List Char)) (swapR i : Nat) : Nat :=
  (scSwapLine (l1.getD i []) l2 (scWindow l2.length swapR i)).2.2

/-- Exact (unbounded) sum of the retained distances over all anchor lines. -/
def scTotalDist (l1 l2 : List (List Char)) (swapR : Nat) : Nat :=
  ((List.range l1.length).map (scBestDist l1 l2 swapR)).sum

/-- Exact (unbounded) sum of the retained match lengths over all anchors. -/
def scTotalLen (l1 l2 : List (List Char)) (swapR : Nat) : Nat :=
  ((List.range l1.length).map (scBestLen l1 l2 swapR)).sum

/-! ### Basic facts about the scorer's building blocks -/

theorem scInitRow_length (n : Nat) : (scInitRow n).length = n := by
  simp [scInitRow]

theorem one_lt_scDblMax : (1 : ℚ) < scDblMax := by
  unfold scDblMax
  rw [show (1024 : ℕ) = 971 + 53 from rfl, pow_add]
  have ha : (1 : ℚ) ≤ 2 ^ 971 := one_le_pow₀ (by norm_num)
  have hb : (2 : ℚ) ^ 2 ≤ 2 ^ 53 := pow_le_pow_right₀ (by norm_num) (by norm_num)
  nlinarith

/-- The branchy `CurLineScore` is the plain quotient in `ℚ`. -/
theorem scLineScore_eq_div (d m : Nat) : scLineScore d m = (d : ℚ) / m := by
  unfold scLineScore
  split
  · rename_i h
    simp [h]
  · rfl

theorem scLineScore_nonneg (d m : Nat) : 0 ≤ scLineScore d m := by
  rw [scLineScore_eq_div]
  positivity

theorem scLineScore_le_one (d m : Nat) (h : d ≤ m) : scLineScore d m ≤ 1 := by
  rw [scLineScore_eq_div]
  rcases Nat.eq_zero_or_pos m with hm | hm
  · subst hm
    interval_cases d
    simp
  · rw [div_le_one (by exact_mod_cast hm)]
    exact_mod_cast h

/-! ### The scorer's distance call computes `lev` on in-range lines -/

theorem scLevRow_take (x : Char) : ∀ (ys : List Char) (t : List Nat)
    (tl l : Nat), ys.length ≤ t.length →
    scLevRow x ys t tl l = scLevRow x ys (t.take ys.length) tl l := by
  intro ys
  induction ys with
  | nil =>
      intro t tl l _
      cases t <;> rfl
  | cons y ys ih =>
      intro t tl l hlen
      cases t with
      | nil => simp at hlen
      | cons top ts =>
          simp only [List.length_cons] at hlen
          simp only [List.take_succ_cons, scLevRow]
          rw [ih ts top _ (by omega)]

theorem scLevRows_trunc (s2 : List Char) (x : Char) (s1 : List Char) (i : Nat)
    (t : List Nat) (hlen : s2.length ≤ t.length) :
    scLevRows s2 (x :: s1) i t = scLevRows s2 (x :: s1) i (t.take s2.length) := by
  rw [scLevRows, scLevRows, scLevRow_take x s2 t i (i + 1) hlen]

theorem scInitRow_take (n m : Nat) (h : n ≤ m) :
    (scInitRow m).take n = scInitRow n := by
  unfold scInitRow
  rw [← List.map_take, List.take_range, min_eq_left h]

/-- On nonempty lines within the `SC_MAX_LINE_LENGTH` bound, the inner-loop
distance call equals the Levenshtein distance. -/
theorem scLineDistance_eq_lev (a b : List Char) (ha : a ≠ []) (hb : b ≠ [])
    (hlen : b.length ≤ SC_MAX_LINE_LENGTH) : scLineDistance a b = lev a b := by
  cases a with
  | nil => exact absurd rfl ha
  | cons x a' =>
      have h512 : b.length ≤ (scInitRow SC_MAX_LINE_LENGTH).length := by
        rw [scInitRow_length]; exact hlen
      unfold scLineDistance mScLevenshteinMatrixInit ScLevenshteinDistance
      rw [scLevRows_trunc b x a' 0 _ h512, scInitRow_take _ _ hlen]
      exact scLevenshteinDistance_eq_lev (x :: a') b hb

/-- On in-range nonempty lines the candidate distance is bounded by the
candidate match length. -/
theorem scCandDist_le_scCandLen (anchor : List Char) (l2 : List (List Char))
    (j : Nat) (ha : anchor ≠ []) (hj : j < l2.length)
    (hl2 : ∀ l ∈ l2, l ≠ [] ∧ l.length ≤ SC_MAX_LINE_LENGTH) :
    scCandDist anchor l2 j ≤ scCandLen anchor l2 j := by
  have hmem : l2.getD j [] ∈ l2 := by
    rw [List.getD_eq_getElem l2 [] hj]
    exact List.getElem_mem hj
  obtain ⟨hne, hlen⟩ := hl2 _ hmem
  unfold scCandDist scCandLen
  rw [scLineDistance_eq_lev anchor _ ha hne hlen]
  exact lev_le_max _ _

theorem scCandCost_le_one (anchor : List Char) (l2 : List (List Char))
    (j : Nat) (ha : anchor ≠ []) (hj : j < l2.length)
    (hl2 : ∀ l ∈ l2, l ≠ [] ∧ l.length ≤ SC_MAX_LINE_LENGTH) :
    scCandCost anchor l2 j ≤ 1 :=
  scLineScore_le_one _ _ (scCandDist_le_scCandLen anchor l2 j ha hj hl2)

/-! ### Window characterisation -/

theorem scWindow_mem (n swapR i : Nat) (hi : i < n) (j : Nat) :
    j ∈ scWindow n swapR i ↔ i - swapR ≤ j ∧ j < min n (i + swapR + 1) := by
  unfold scWindow
  rw [List.mem_range'_1]
  by_cases h1 : i > swapR
  · rw [if_pos h1]
    by_cases h2 : n - i > swapR
    · rw [if_pos h2]; omega
    · rw [if_neg h2]; omega
  · rw [if_neg h1]
    by_cases h2 : n - i > swapR
    · rw [if_pos h2]; omega
    · rw [if_neg h2]; omega

theorem scWindow_self_mem (n swapR i : Nat) (hi : i < n) :
    i ∈ scWindow n swapR i := by
  rw [scWindow_mem n swapR i hi]
  omega

/-! ### The candidate loop retains the first candidate of minimal cost -/

/-- The inner-loop body, re-read through the candidate accessors. -/
theorem scSwapLineStep_eq (anchor : List Char) (l2 : List (List Char))
    (st : ℚ × Nat × Nat) (j : Nat) :
    scSwapLineStep anchor l2 st j =
      if st.1 > scCandCost anchor l2 j then
        (scCandCost anchor l2 j, scCandDist anchor l2 j, scCandLen anchor l2 j)
      else st := rfl

/-- Characterisation of the candidate fold: either no candidate beat the
initial score and the state is unchanged, or the result is the candidate of
the first index attaining the minimum cost. -/
theorem scSwapLine_foldl_spec (anchor : List Char) (l2 : List (List Char)) :
    ∀ (js : List Nat) (st : ℚ × Nat × Nat),
    (List.foldl (scSwapLineStep anchor l2) st js = st ∧
       ∀ k ∈ js, st.1 ≤ scCandCost anchor l2 k) ∨
    (∃ pre j post, js = pre ++ j :: post ∧
       List.foldl (scSwapLineStep anchor l2) st js =
         (scCandCost anchor l2 j, scCandDist anchor l2 j,
           scCandLen anchor l2 j) ∧
       scCandCost anchor l2 j < st.1 ∧
       (∀ k ∈ js, scCandCost anchor l2 j ≤ scCandCost anchor l2 k) ∧
       (∀ k ∈ pre, scCandCost anchor l2 j < scCandCost anchor l2 k)) := by
  intro js
  induction js with
  | nil =>
      intro st
      exact Or.inl ⟨rfl, by simp⟩
  | cons k rest ih =>
      intro st
      rw [List.foldl_cons, scSwapLineStep_eq]
      by_cases hk : st.1 > scCandCost anchor l2 k
      · rw [if_pos hk]
        rcases ih (scCandCost anchor l2 k, scCandDist anchor l2 k,
            scCandLen anchor l2 k) with ⟨hEq, hGe⟩ | ⟨pre, j, post, hjs, hEq, hlt, hmin, hpre⟩
        · refine Or.inr ⟨[], k, rest, rfl, hEq, hk, ?_, by simp⟩
          intro m hm
          rcases List.mem_cons.1 hm with h | h
          · subst h; exact le_refl _
          · exact hGe m h
        · refine Or.inr ⟨k :: pre, j, post, by rw [hjs]; rfl, hEq,
            lt_trans hlt hk, ?_, ?_⟩
          · intro m hm
            rcases List.mem_cons.1 hm with h | h
            · subst h; exact le_of_lt hlt
            · exact hmin m h
          · intro m hm
            rcases List.mem_cons.1 hm with h | h
            · subst h; exact hlt
            · exact hpre m h
      · rw [if_neg hk]
        push_neg at hk
        rcases ih st with ⟨hEq, hGe⟩ | ⟨pre, j, post, hjs, hEq, hlt, hmin, hpre⟩
        · refine Or.inl ⟨hEq, ?_⟩
          intro m hm
          rcases List.mem_cons.1 hm with h | h
          · subst h; exact hk
          · exact hGe m h
        · refine Or.inr ⟨k :: pre, j, post, by rw [hjs]; rfl, hEq, hlt, ?_, ?_⟩
          · intro m hm
            rcases List.mem_cons.1 hm with h | h
            · subst h; exact le_trans (le_of_lt hlt) hk
            · exact hmin m h
          · intro m hm
            rcases List.mem_cons.1 hm with h | h
            · subst h; exact lt_of_lt_of_le hlt hk
            · exact hpre m h

/-- Earlier elements of a `range'` decomposition are smaller. -/
theorem range'_split_lt : ∀ (n s : Nat) (pre : List Nat) (j : Nat)
    (post : List Nat), List.range' s n = pre ++ j :: post →
    ∀ k ∈ pre, k < j := by
  intro n
  induction n with
  | zero =>
      intro s pre j post h
      simp at h
  | succ n ih =>
      intro s pre j post h
      rw [List.range'_succ] at h
      cases pre with
      | nil => simp
      | cons p pre' =>
          simp only [List.cons_append, List.cons.injEq] at h
          obtain ⟨hp, hrest⟩ := h
          intro k hk
          rcases List.mem_cons.1 hk with h | h
          · subst h; subst hp
            have hj : j ∈ List.range' (s + 1) n := by
              rw [hrest]; simp
            exact (List.mem_range'_1.1 hj).1
          · exact ih (s + 1) pre' j post hrest k h

/-- Under the scorer's preconditions, the candidate loop over a nonempty
index window returns the first minimal-cost candidate. -/
theorem scSwapLine_argmin (anchor : List Char) (l2 : List (List Char))
    (js : List Nat) (k0 : Nat) (hk0 : k0 ∈ js)
    (hcosts : ∀ k ∈ js, scCandCost anchor l2 k ≤ 1) :
    ∃ pre j post, js = pre ++ j :: post ∧
      scSwapLine anchor l2 js =
        (scCandCost anchor l2 j, scCandDist anchor l2 j,
          scCandLen anchor l2 j) ∧
      (∀ k ∈ js, scCandCost anchor l2 j ≤ scCandCost anchor l2 k) ∧
      (∀ k ∈ pre, scCandCost anchor l2 j < scCandCost anchor l2 k) := by
  rcases scSwapLine_foldl_spec anchor l2 js (scDblMax, scSizeMax, 1) with
    ⟨_, hGe⟩ | ⟨pre, j, post, hjs, hEq, _, hmin, hpre⟩
  · exact absurd (le_trans (hGe k0 hk0) (hcosts k0 hk0))
      (not_le.2 one_lt_scDblMax)
  · exact ⟨pre, j, post, hjs, hEq, hmin, hpre⟩

/-! ### The accumulation loop -/

/-- Later elements of a `range'` decomposition are larger. -/
theorem range'_split_gt : ∀ (n s : Nat) (pre : List Nat) (j : Nat)
    (post : List Nat), List.range' s n = pre ++ j :: post →
    ∀ k ∈ post, j < k := by
  intro n
  induction n with
  | zero =>
      intro s pre j post h
      simp at h
  | succ n ih =>
      intro s pre j post h
      rw [List.range'_succ] at h
      cases pre with
      | nil =>
          simp only [List.nil_append, List.cons.injEq] at h
          obtain ⟨hp, hrest⟩ := h
          subst hp
          intro k hk
          have : k ∈ List.range' (s + 1) n := by rw [hrest]; simp [hk]
          exact (List.mem_range'_1.1 this).1
      | cons p pre' =>
          simp only [List.cons_append, List.cons.injEq] at h
          exact ih (s + 1) pre' j post h.2

/-- The anchor direction swap: components and length ordering. -/
theorem scAnchorPair_spec (f1 f2 : List (List Char)) :
    (scAnchorPair f1 f2 = (f2, f1) ∧ f2.length ≤ f1.length) ∨
    (scAnchorPair f1 f2 = (f1, f2) ∧ f1.length ≤ f2.length) := by
  unfold scAnchorPair
  by_cases h : f1.length > f2.length
  · exact Or.inl ⟨if_pos h, le_of_lt h⟩
  · exact Or.inr ⟨if_neg h, by omega⟩

/-- Per-anchor facts: the retained distance is bounded by the retained match
length, which is positive. -/
theorem scBest_bound (l1 l2 : List (List Char)) (swapR i : Nat)
    (hi : i < l1.length) (hlen : l1.length ≤ l2.length)
    (hl1 : ∀ l ∈ l1, l ≠ [] ∧ l.length ≤ SC_MAX_LINE_LENGTH)
    (hl2 : ∀ l ∈ l2, l ≠ [] ∧ l.length ≤ SC_MAX_LINE_LENGTH) :
    scBestDist l1 l2 swapR i ≤ scBestLen l1 l2 swapR i ∧
      1 ≤ scBestLen l1 l2 swapR i := by
  have hi2 : i < l2.length := lt_of_lt_of_le hi hlen
  have hanchor : l1.getD i [] ∈ l1 := by
    rw [List.getD_eq_getElem l1 [] hi]
    exact List.getElem_mem hi
  have ha : l1.getD i [] ≠ [] := (hl1 _ hanchor).1
  have hcosts : ∀ k ∈ scWindow l2.length swapR i,
      scCandCost (l1.getD i []) l2 k ≤ 1 := by
    intro k hk
    have hk2 : k < l2.length := by
      have := (scWindow_mem l2.length swapR i hi2 k).1 hk
      omega
    exact scCandCost_le_one _ l2 k ha hk2 hl2
  obtain ⟨pre, j, post, hjs, hEq, _, _⟩ :=
    scSwapLine_argmin (l1.getD i []) l2 (scWindow l2.length swapR i) i
      (scWindow_self_mem l2.length swapR i hi2) hcosts
  have hjmem : j ∈ scWindow l2.length swapR i := by rw [hjs]; simp
  have hj2 : j < l2.length := by
    have := (scWindow_mem l2.length swapR i hi2 j).1 hjmem
    omega
  constructor
  · rw [scBestDist, scBestLen, hEq]
    exact scCandDist_le_scCandLen _ l2 j ha hj2 hl2
  · rw [scBestLen, hEq]
    show 1 ≤ scCandLen (l1.getD i []) l2 j
    unfold scCandLen
    have : (l1.getD i []).length ≠ 0 := by
      intro h0
      exact ha (List.eq_nil_of_length_eq_zero h0)
    omega

/-- The anchor loop: given the running invariants, it returns `none` exactly
when the checked length accumulation overflows, and otherwise the exact sums
(the `TotalDiff` wrap-around is the identity). -/
theorem scSwapLoop_spec (l1 l2 : List (List Char)) (swapR : Nat) :
    ∀ (js : List Nat) (td tl : Nat), td ≤ tl → tl ≤ scSizeMax →
    (∀ i ∈ js, scBestDist l1 l2 swapR i ≤ scBestLen l1 l2 swapR i) →
    scSwapLoop l1 l2 swapR js td tl =
      if tl + (js.map (scBestLen l1 l2 swapR)).sum > scSizeMax then none
      else some (td + (js.map (scBestDist l1 l2 swapR)).sum,
        tl + (js.map (scBestLen l1 l2 swapR)).sum) := by
  intro js
  induction js with
  | nil =>
      intro td tl hdl htl _
      rw [scSwapLoop]
      rw [if_neg (by simp; omega)]
      simp
  | cons i rest ih =>
      intro td tl hdl htl hbound
      rw [scSwapLoop]
      simp only [List.map_cons, List.sum_cons]
      have hbd : scBestDist l1 l2 swapR i ≤ scBestLen l1 l2 swapR i :=
        hbound i (by simp)
      show (if tl + scBestLen l1 l2 swapR i > scSizeMax then none
          else scSwapLoop l1 l2 swapR rest
            ((td + scBestDist l1 l2 swapR i) % 2 ^ 64)
            (tl + scBestLen l1 l2 swapR i)) = _
      by_cases htop : tl + scBestLen l1 l2 swapR i > scSizeMax
      · rw [if_pos htop, if_pos (by omega)]
      · rw [if_neg htop]
        have hmod : (td + scBestDist l1 l2 swapR i) % 2 ^ 64 =
            td + scBestDist l1 l2 swapR i := by
          apply Nat.mod_eq_of_lt
          have : td + scBestDist l1 l2 swapR i ≤ tl + scBestLen l1 l2 swapR i := by
            omega
          unfold scSizeMax at htop
          omega
        rw [hmod, ih (td + scBestDist l1 l2 swapR i)
          (tl + scBestLen l1 l2 swapR i) (by omega) (by omega)
          (fun m hm => hbound m (by simp [hm]))]
        by_cases hall : tl + scBestLen l1 l2 swapR i +
            (rest.map (scBestLen l1 l2 swapR)).sum > scSizeMax
        · rw [if_pos hall, if_pos (by omega)]
        · rw [if_neg hall, if_neg (by omega)]
          simp [Nat.add_assoc]

/-- Line conditions transfer to both components of the anchor pair. -/
theorem scAnchorPair_lines (f1 f2 : List (List Char))
    (hl1 : ∀ l ∈ f1, l ≠ [] ∧ l.length ≤ SC_MAX_LINE_LENGTH)
    (hl2 : ∀ l ∈ f2, l ≠ [] ∧ l.length ≤ SC_MAX_LINE_LENGTH) :
    (∀ l ∈ (scAnchorPair f1 f2).1, l ≠ [] ∧ l.length ≤ SC_MAX_LINE_LENGTH) ∧
    (∀ l ∈ (scAnchorPair f1 f2).2, l ≠ [] ∧ l.length ≤ SC_MAX_LINE_LENGTH) ∧
    (scAnchorPair f1 f2).1.length ≤ (scAnchorPair f1 f2).2.length := by
  rcases scAnchorPair_spec f1 f2 with ⟨hp, hle⟩ | ⟨hp, hle⟩ <;> rw [hp] <;>
    exact ⟨by assumption, by assumption, hle⟩

/-- Master characterisation of `ScLevenshteinSwap` under the scorer's
preconditions: sentinel exactly on length-accumulation overflow, otherwise
`1 - TotalDiff / TotalLength` with exact (non-wrapping) sums. -/
theorem scLevenshteinSwap_char (f1 f2 : List (List Char)) (swapR : Nat)
    (hl1 : ∀ l ∈ f1, l ≠ [] ∧ l.length ≤ SC_MAX_LINE_LENGTH)
    (hl2 : ∀ l ∈ f2, l ≠ [] ∧ l.length ≤ SC_MAX_LINE_LENGTH) :
    ScLevenshteinSwap f1 f2 swapR =
      if scTotalLen (scAnchorPair f1 f2).1 (scAnchorPair f1 f2).2 swapR >
          scSizeMax then none
      else some (1 -
        (scTotalDist (scAnchorPair f1 f2).1 (scAnchorPair f1 f2).2 swapR : ℚ) /
        (scTotalLen (scAnchorPair f1 f2).1 (scAnchorPair f1 f2).2 swapR : ℚ)) := by
  obtain ⟨hp1, hp2, hple⟩ := scAnchorPair_lines f1 f2 hl1 hl2
  have hbound : ∀ i ∈ List.range (scAnchorPair f1 f2).1.length,
      scBestDist (scAnchorPair f1 f2).1 (scAnchorPair f1 f2).2 swapR i ≤
        scBestLen (scAnchorPair f1 f2).1 (scAnchorPair f1 f2).2 swapR i := by
    intro i hi
    exact (scBest_bound _ _ swapR i (List.mem_range.1 hi) hple hp1 hp2).1
  show (match scSwapLoop (scAnchorPair f1 f2).1 (scAnchorPair f1 f2).2 swapR
      (List.range (scAnchorPair f1 f2).1.length) 0 0 with
    | none => none
    | some (d, len) => some (1 - (d : ℚ) / (len : ℚ))) = _
  rw [scSwapLoop_spec _ _ swapR _ 0 0 (le_refl 0) (by unfold scSizeMax; omega)
    hbound]
  by_cases hover : (0 : Nat) + ((List.range (scAnchorPair f1 f2).1.length).map
      (scBestLen (scAnchorPair f1 f2).1 (scAnchorPair f1 f2).2 swapR)).sum >
      scSizeMax
  · rw [if_pos hover, if_pos (by unfold scTotalLen; omega)]
  · rw [if_neg hover, if_neg (by unfold scTotalLen; omega)]
    show some _ = some _
    rw [scTotalDist, scTotalLen]
    norm_num

/-- The exact distance sum is bounded by the exact length sum. -/
theorem scTotalDist_le_scTotalLen (l1 l2 : List (List Char)) (swapR : Nat)
    (hple : l1.length ≤ l2.length)
    (hp1 : ∀ l ∈ l1, l ≠ [] ∧ l.length ≤ SC_MAX_LINE_LENGTH)
    (hp2 : ∀ l ∈ l2, l ≠ [] ∧ l.length ≤ SC_MAX_LINE_LENGTH) :
    scTotalDist l1 l2 swapR ≤ scTotalLen l1 l2 swapR := by
  unfold scTotalDist scTotalLen
  apply List.sum_le_sum
  intro i hi
  exact (scBest_bound l1 l2 swapR i (List.mem_range.1 hi) hple hp1 hp2).1

/-- For a nonempty anchor file the exact length sum is positive. -/
theorem scTotalLen_pos (l1 l2 : List (List Char)) (swapR : Nat)
    (hne : l1 ≠ []) (hple : l1.length ≤ l2.length)
    (hp1 : ∀ l ∈ l1, l ≠ [] ∧ l.length ≤ SC_MAX_LINE_LENGTH)
    (hp2 : ∀ l ∈ l2, l ≠ [] ∧ l.length ≤ SC_MAX_LINE_LENGTH) :
    1 ≤ scTotalLen l1 l2 swapR := by
  have hlen : 0 < l1.length := List.length_pos.2 hne
  have h0 : scBestLen l1 l2 swapR 0 ∈
      (List.range l1.length).map (scBestLen l1 l2 swapR) :=
    List.mem_map_of_mem _ (List.mem_range.2 hlen)
  have h1 : 1 ≤ scBestLen l1 l2 swapR 0 :=
    (scBest_bound l1 l2 swapR 0 hlen hple hp1 hp2).2
  calc 1 ≤ scBestLen l1 l2 swapR 0 := h1
    _ ≤ _ := List.single_le_sum (fun x _ => Nat.zero_le x) _ h0

/-- **C5.** `ScLevenshteinSwap` returns the sentinel iff the checked
`TotalLength` accumulation overflows `size_t`; under no-overflow the unchecked
`TotalDiff` accumulation never wraps (each anchor line's best distance is
bounded by that line's match length) and the result uses the exact sums. -/
theorem claim_C5_overflow_sentinel (f1 f2 : List (List Char)) (swapR : Nat)
    (h1 : f1 ≠ []) (h2 : f2 ≠ [])
    (hl1 : ∀ l ∈ f1, l ≠ [] ∧ l.length ≤ SC_MAX_LINE_LENGTH)
    (hl2 : ∀ l ∈ f2, l ≠ [] ∧ l.length ≤ SC_MAX_LINE_LENGTH) :
    (ScLevenshteinSwap f1 f2 swapR = none ↔
      scTotalLen (scAnchorPair f1 f2).1 (scAnchorPair f1 f2).2 swapR >
        scSizeMax) ∧
    (∀ i < (scAnchorPair f1 f2).1.length,
      scBestDist (scAnchorPair f1 f2).1 (scAnchorPair f1 f2).2 swapR i ≤
        scBestLen (scAnchorPair f1 f2).1 (scAnchorPair f1 f2).2 swapR i) ∧
    (scTotalLen (scAnchorPair f1 f2).1 (scAnchorPair f1 f2).2 swapR ≤
        scSizeMax →
      scTotalDist (scAnchorPair f1 f2).1 (scAnchorPair f1 f2).2 swapR ≤
        scTotalLen (scAnchorPair f1 f2).1 (scAnchorPair f1 f2).2 swapR ∧
      ScLevenshteinSwap f1 f2 swapR = some (1 -
        (scTotalDist (scAnchorPair f1 f2).1 (scAnchorPair f1 f2).2 swapR : ℚ) /
        (scTotalLen (scAnchorPair f1 f2).1 (scAnchorPair f1 f2).2 swapR : ℚ))) := by
  obtain ⟨hp1, hp2, hple⟩ := scAnchorPair_lines f1 f2 hl1 hl2
  have hchar := scLevenshteinSwap_char f1 f2 swapR hl1 hl2
  refine ⟨?_, ?_, ?_⟩
  · rw [hchar]
    by_cases hover : scTotalLen (scAnchorPair f1 f2).1 (scAnchorPair f1 f2).2
        swapR > scSizeMax
    · rw [if_pos hover]; simp [hover]
    · rw [if_neg hover]; simp [hover]
  · intro i hi
    exact (scBest_bound _ _ swapR i hi hple hp1 hp2).1
  · intro hok
    refine ⟨scTotalDist_le_scTotalLen _ _ swapR hple hp1 hp2, ?_⟩
    rw [hchar, if_neg (by omega)]

/-- Witness for C5 at a concrete input. -/
theorem claim_C5_overflow_sentinel_witness :
    (ScLevenshteinSwap [[' ']] [[' ']] 0 = none ↔
      scTotalLen (scAnchorPair [[' ']] [[' ']]).1
        (scAnchorPair [[' ']] [[' ']]).2 0 > scSizeMax) ∧
    (∀ i < (scAnchorPair [[' ']] [[' ']]).1.length,
      scBestDist (scAnchorPair [[' ']] [[' ']]).1
          (scAnchorPair [[' ']] [[' ']]).2 0 i ≤
        scBestLen (scAnchorPair [[' ']] [[' ']]).1
          (scAnchorPair [[' ']] [[' ']]).2 0 i) ∧
    (scTotalLen (scAnchorPair [[' ']] [[' ']]).1
        (scAnchorPair [[' ']] [[' ']]).2 0 ≤ scSizeMax →
      scTotalDist (scAnchorPair [[' ']] [[' ']]).1
          (scAnchorPair [[' ']] [[' ']]).2 0 ≤
        scTotalLen (scAnchorPair [[' ']] [[' ']]).1
          (scAnchorPair [[' ']] [[' ']]).2 0 ∧
      ScLevenshteinSwap [[' ']] [[' ']] 0 = some (1 -
        (scTotalDist (scAnchorPair [[' ']] [[' ']]).1
          (scAnchorPair [[' ']] [[' ']]).2 0 : ℚ) /
        (scTotalLen (scAnchorPair [[' ']] [[' ']]).1
          (scAnchorPair [[' ']] [[' ']]).2 0 : ℚ))) :=
  claim_C5_overflow_sentinel [[' ']] [[' ']] 0 (by decide) (by decide)
    (by decide) (by decide)

/-- **C10.** Under the scorer's preconditions, a non-sentinel result of
`ScLevenshteinSwap` lies in `[0, 1]`: the accumulated total distance never
exceeds the accumulated total match length, so a successfully computed score
is never negative. -/
theorem claim_C10_score_in_unit_interval (f1 f2 : List (List Char))
    (swapR : Nat) (q : ℚ) (h1 : f1 ≠ []) (h2 : f2 ≠ [])
    (hl1 : ∀ l ∈ f1, l ≠ [] ∧ l.length ≤ SC_MAX_LINE_LENGTH)
    (hl2 : ∀ l ∈ f2, l ≠ [] ∧ l.length ≤ SC_MAX_LINE_LENGTH)
    (hq : ScLevenshteinSwap f1 f2 swapR = some q) : 0 ≤ q ∧ q ≤ 1 := by
  obtain ⟨hp1, hp2, hple⟩ := scAnchorPair_lines f1 f2 hl1 hl2
  have hne : (scAnchorPair f1 f2).1 ≠ [] := by
    rcases scAnchorPair_spec f1 f2 with ⟨hp, _⟩ | ⟨hp, _⟩ <;> rw [hp] <;>
      assumption
  rw [scLevenshteinSwap_char f1 f2 swapR hl1 hl2] at hq
  by_cases hover : scTotalLen (scAnchorPair f1 f2).1 (scAnchorPair f1 f2).2
      swapR > scSizeMax
  · rw [if_pos hover] at hq
    exact absurd hq (by simp)
  · rw [if_neg hover] at hq
    have hq' : q = 1 -
        (scTotalDist (scAnchorPair f1 f2).1 (scAnchorPair f1 f2).2 swapR : ℚ) /
        (scTotalLen (scAnchorPair f1 f2).1 (scAnchorPair f1 f2).2 swapR : ℚ) := by
      injection hq with h
      exact h.symm
    have hDL := scTotalDist_le_scTotalLen _ _ swapR hple hp1 hp2
    have hL1 := scTotalLen_pos _ _ swapR hne hple hp1 hp2
    have hLpos : (0 : ℚ) <
        (scTotalLen (scAnchorPair f1 f2).1 (scAnchorPair f1 f2).2 swapR : ℚ) := by
      exact_mod_cast hL1
    have hdiv0 : (0 : ℚ) ≤
        (scTotalDist (scAnchorPair f1 f2).1 (scAnchorPair f1 f2).2 swapR : ℚ) /
        (scTotalLen (scAnchorPair f1 f2).1 (scAnchorPair f1 f2).2 swapR : ℚ) := by
      positivity
    have hdiv1 :
        (scTotalDist (scAnchorPair f1 f2).1 (scAnchorPair f1 f2).2 swapR : ℚ) /
        (scTotalLen (scAnchorPair f1 f2).1 (scAnchorPair f1 f2).2 swapR : ℚ) ≤ 1 := by
      rw [div_le_one hLpos]
      exact_mod_cast hDL
    rw [hq']
    constructor <;> linarith

set_option maxRecDepth 40000 in
/-- Witness for C10 at a concrete input. -/
theorem claim_C10_score_in_unit_interval_witness :
    0 ≤ (1 : ℚ) ∧ (1 : ℚ) ≤ 1 := by
  refine claim_C10_score_in_unit_interval [['a']] [['a']] 0 1 (by decide)
    (by decide) (by decide) (by decide) ?_
  show (match scSwapLoop [['a']] [['a']] 0 (List.range 1) 0 0 with
    | none => none
    | some (d, len) => some (1 - (d : ℚ) / (len : ℚ))) = some 1
  have hd : scLineDistance ['a'] ['a'] = 0 := rfl
  have hw : scWindow 1 0 0 = [0] := rfl
  have hcost : scCandCost ['a'] [['a']] 0 = 0 := by
    unfold scCandCost
    rw [show scLineDistance ['a'] (([['a']] : List (List Char)).getD 0 []) = 0
      from hd]
    simp [scLineScore]
  have hline : scSwapLine ['a'] [['a']] [0] = (0, 0, 1) := by
    unfold scSwapLine
    rw [List.foldl_cons, List.foldl_nil, scSwapLineStep_eq]
    rw [if_pos (by rw [hcost]; exact lt_trans one_pos one_lt_scDblMax)]
    rw [hcost]
    congr 1
  show (match (if (0 : Nat) + (scSwapLine ['a'] [['a']]
      (scWindow 1 0 0)).2.2 > scSizeMax then none
    else scSwapLoop [['a']] [['a']] 0 []
      (((0 : Nat) + (scSwapLine ['a'] [['a']] (scWindow 1 0 0)).2.1) % 2 ^ 64)
      ((0 : Nat) + (scSwapLine ['a'] [['a']] (scWindow 1 0 0)).2.2)) with
    | none => none
    | some (d, len) => some (1 - (d : ℚ) / (len : ℚ))) = some 1
  rw [hw, hline]
  norm_num [scSwapLoop, scSizeMax]

/-- Order facts for a decomposition of a window (windows are `range'` lists,
hence sorted). -/
theorem scWindow_split_order (n swapR i : Nat) (pre : List Nat) (j : Nat)
    (post : List Nat) (h : scWindow n swapR i = pre ++ j :: post) :
    (∀ k ∈ pre, k < j) ∧ (∀ k ∈ post, j < k) := by
  unfold scWindow at h
  exact ⟨range'_split_lt _ _ pre j post h, range'_split_gt _ _ pre j post h⟩

/-- **C2.** In `ScLevenshteinSwap`, for each anchor line index `i` the
candidate target lines examined are exactly those with indices in
`[max(0, i − NumLinesSwap), min(targetLineCount, i + NumLinesSwap + 1))`; each
candidate's normalised cost is `distance / max(anchorLen, candidateLen)`,
exactly `0` when the distance is `0`; the candidate retained is the one of
lowest normalised cost, ties keeping the earliest index. -/
theorem claim_C2_window_and_selection (l2 : List (List Char))
    (anchor : List Char) (swapR i : Nat) (hi : i < l2.length)
    (ha : anchor ≠ [])
    (hl2 : ∀ l ∈ l2, l ≠ [] ∧ l.length ≤ SC_MAX_LINE_LENGTH) :
    (∀ j, j ∈ scWindow l2.length swapR i ↔
        i - swapR ≤ j ∧ j < min l2.length (i + swapR + 1)) ∧
    (∀ j, scCandCost anchor l2 j =
        (scCandDist anchor l2 j : ℚ) / (scCandLen anchor l2 j : ℚ)) ∧
    (∀ j, scCandDist anchor l2 j = 0 → scCandCost anchor l2 j = 0) ∧
    (∃ j ∈ scWindow l2.length swapR i,
        scSwapLine anchor l2 (scWindow l2.length swapR i) =
          (scCandCost anchor l2 j, scCandDist anchor l2 j,
            scCandLen anchor l2 j) ∧
        (∀ k ∈ scWindow l2.length swapR i,
            scCandCost anchor l2 j ≤ scCandCost anchor l2 k) ∧
        (∀ k ∈ scWindow l2.length swapR i, k < j →
            scCandCost anchor l2 j < scCandCost anchor l2 k)) := by
  refine ⟨scWindow_mem l2.length swapR i hi, ?_, ?_, ?_⟩
  · intro j
    unfold scCandCost scCandDist scCandLen
    exact scLineScore_eq_div _ _
  · intro j h0
    unfold scCandCost
    unfold scCandDist at h0
    rw [h0]
    simp [scLineScore]
  · have hcosts : ∀ k ∈ scWindow l2.length swapR i,
        scCandCost anchor l2 k ≤ 1 := by
      intro k hk
      have hk2 : k < l2.length := by
        have := (scWindow_mem l2.length swapR i hi k).1 hk
        omega
      exact scCandCost_le_one _ l2 k ha hk2 hl2
    obtain ⟨pre, j, post, hjs, hEq, hmin, hpre⟩ :=
      scSwapLine_argmin anchor l2 (scWindow l2.length swapR i) i
        (scWindow_self_mem l2.length swapR i hi) hcosts
    obtain ⟨hlt, hgt⟩ := scWindow_split_order l2.length swapR i pre j post hjs
    refine ⟨j, by rw [hjs]; simp, hEq, hmin, ?_⟩
    intro k hk hkj
    rw [hjs] at hk
    rcases List.mem_append.1 hk with h | h
    · exact hpre k h
    · rcases List.mem_cons.1 h with h | h
      · omega
      · exact absurd (hgt k h) (by omega)

/-- Witness for C2 at a concrete input. -/
theorem claim_C2_window_and_selection_witness :
    (∀ j, j ∈ scWindow 2 1 0 ↔ 0 - 1 ≤ j ∧ j < min 2 (0 + 1 + 1)) ∧
    (∀ j, scCandCost ['a'] [['a'], ['b']] j =
        (scCandDist ['a'] [['a'], ['b']] j : ℚ) /
          (scCandLen ['a'] [['a'], ['b']] j : ℚ)) ∧
    (∀ j, scCandDist ['a'] [['a'], ['b']] j = 0 →
        scCandCost ['a'] [['a'], ['b']] j = 0) ∧
    (∃ j ∈ scWindow 2 1 0,
        scSwapLine ['a'] [['a'], ['b']] (scWindow 2 1 0) =
          (scCandCost ['a'] [['a'], ['b']] j, scCandDist ['a'] [['a'], ['b']] j,
            scCandLen ['a'] [['a'], ['b']] j) ∧
        (∀ k ∈ scWindow 2 1 0, scCandCost ['a'] [['a'], ['b']] j ≤
            scCandCost ['a'] [['a'], ['b']] k) ∧
        (∀ k ∈ scWindow 2 1 0, k < j → scCandCost ['a'] [['a'], ['b']] j <
            scCandCost ['a'] [['a'], ['b']] k)) :=
  claim_C2_window_and_selection [['a'], ['b']] ['a'] 1 0 (by decide)
    (by decide) (by decide)

set_option maxRecDepth 40000 in
/-- Counterexample for C3: two files with the same number of lines but
different contents score asymmetrically (`1` versus `1/2`), because the
direction swap only triggers on a strictly larger line count. -/
theorem claim_C3_counterexample :
    ScLevenshteinSwap [['a'], ['a']] [['a'], ['b']] 3 ≠
      ScLevenshteinSwap [['a'], ['b']] [['a'], ['a']] 3 := by
  have hc0 : scCandCost ['a'] [['a'], ['b']] 0 = 0 := by
    unfold scCandCost
    rw [show scLineDistance ['a']
      (([['a'], ['b']] : List (List Char)).getD 0 []) = 0 from rfl]
    simp [scLineScore]
  have hc1 : scCandCost ['a'] [['a'], ['b']] 1 = 1 := by
    unfold scCandCost
    rw [show scLineDistance ['a']
      (([['a'], ['b']] : List (List Char)).getD 1 []) = 1 from rfl]
    rw [scLineScore_eq_div]
    norm_num
  have hst0 : scSwapLineStep ['a'] [['a'], ['b']] (scDblMax, scSizeMax, 1) 0 =
      (0, 0, 1) := by
    rw [scSwapLineStep_eq,
      if_pos (by rw [hc0]; exact lt_trans one_pos one_lt_scDblMax)]
    rw [hc0]
    rfl
  have hst1 : scSwapLineStep ['a'] [['a'], ['b']] ((0 : ℚ), 0, 1) 1 =
      (0, 0, 1) := by
    rw [scSwapLineStep_eq, if_neg (by rw [hc1]; norm_num)]
  have hline : scSwapLine ['a'] [['a'], ['b']] [0, 1] = (0, 0, 1) := by
    unfold scSwapLine
    rw [List.foldl_cons, hst0, List.foldl_cons, hst1, List.foldl_nil]
  have hw0 : scWindow 2 3 0 = [0, 1] := rfl
  have hw1 : scWindow 2 3 1 = [0, 1] := rfl
  have hAB : ScLevenshteinSwap [['a'], ['a']] [['a'], ['b']] 3 = some 1 := by
    show (match scSwapLoop [['a'], ['a']] [['a'], ['b']] 3
        (List.range 2) 0 0 with
      | none => none
      | some (d, len) => some (1 - (d : ℚ) / (len : ℚ))) = some 1
    have hloop : scSwapLoop [['a'], ['a']] [['a'], ['b']] 3 [0, 1] 0 0 =
        some (0, 2) := by
      rw [scSwapLoop]
      norm_num [hw0, hline, scSizeMax]
      rw [scSwapLoop]
      norm_num [hw1, hline, scSizeMax]
      rw [scSwapLoop]
    rw [show List.range 2 = [0, 1] from rfl, hloop]
    norm_num
  have hd0 : scCandCost ['a'] [['a'], ['a']] 0 = 0 := by
    unfold scCandCost
    rw [show scLineDistance ['a']
      (([['a'], ['a']] : List (List Char)).getD 0 []) = 0 from rfl]
    simp [scLineScore]
  have hd1 : scCandCost ['a'] [['a'], ['a']] 1 = 0 := by
    unfold scCandCost
    rw [show scLineDistance ['a']
      (([['a'], ['a']] : List (List Char)).getD 1 []) = 0 from rfl]
    simp [scLineScore]
  have he0 : scCandCost ['b'] [['a'], ['a']] 0 = 1 := by
    unfold scCandCost
    rw [show scLineDistance ['b']
      (([['a'], ['a']] : List (List Char)).getD 0 []) = 1 from rfl]
    rw [scLineScore_eq_div]
    norm_num
  have hsa0 : scSwapLineStep ['a'] [['a'], ['a']] (scDblMax, scSizeMax, 1) 0 =
      (0, 0, 1) := by
    rw [scSwapLineStep_eq,
      if_pos (by rw [hd0]; exact lt_trans one_pos one_lt_scDblMax)]
    rw [hd0]
    rfl
  have hsa1 : scSwapLineStep ['a'] [['a'], ['a']] ((0 : ℚ), 0, 1) 1 =
      (0, 0, 1) := by
    rw [scSwapLineStep_eq, if_neg (by rw [hd1]; norm_num)]
  have hlineA : scSwapLine ['a'] [['a'], ['a']] [0, 1] = (0, 0, 1) := by
    unfold scSwapLine
    rw [List.foldl_cons, hsa0, List.foldl_cons, hsa1, List.foldl_nil]
  have hsb0 : scSwapLineStep ['b'] [['a'], ['a']] (scDblMax, scSizeMax, 1) 0 =
      (1, 1, 1) := by
    rw [scSwapLineStep_eq, if_pos (by rw [he0]; exact one_lt_scDblMax)]
    rw [he0]
    rfl
  have hsb1 : scSwapLineStep ['b'] [['a'], ['a']] ((1 : ℚ), 1, 1) 1 =
      (1, 1, 1) := by
    rw [scSwapLineStep_eq]
    rw [if_neg ?_]
    show ¬((1 : ℚ), (1 : Nat), (1 : Nat)).1 > scCandCost ['b'] [['a'], ['a']] 1
    rw [show scCandCost ['b'] [['a'], ['a']] 1 = 1 from by
      unfold scCandCost
      rw [show scLineDistance ['b']
        (([['a'], ['a']] : List (List Char)).getD 1 []) = 1 from rfl]
      rw [scLineScore_eq_div]
      norm_num]
    norm_num
  have hlineB : scSwapLine ['b'] [['a'], ['a']] [0, 1] = (1, 1, 1) := by
    unfold scSwapLine
    rw [List.foldl_cons, hsb0, List.foldl_cons, hsb1, List.foldl_nil]
  have hBA : ScLevenshteinSwap [['a'], ['b']] [['a'], ['a']] 3 =
      some (1 / 2) := by
    show (match scSwapLoop [['a'], ['b']] [['a'], ['a']] 3
        (List.range 2) 0 0 with
      | none => none
      | some (d, len) => some (1 - (d : ℚ) / (len : ℚ))) = some (1 / 2)
    have hloop : scSwapLoop [['a'], ['b']] [['a'], ['a']] 3 [0, 1] 0 0 =
        some (1, 2) := by
      rw [scSwapLoop]
      norm_num [hw0, hlineA, scSizeMax]
      rw [scSwapLoop]
      norm_num [hw1, hlineB, scSizeMax]
      rw [scSwapLoop]
    rw [show List.range 2 = [0, 1] from rfl, hloop]
    norm_num
  rw [hAB, hBA]
  simp only [ne_eq, Option.some.injEq]
  norm_num

/-- **C3 (amended).** Scoring is order-independent whenever the two files have
different numbers of lines: the direction normalisation then chooses the same
(anchor, target) pair for both calls.  (For equal line counts with different
contents the code is not symmetric, see the counterexample.) -/
theorem claim_C3_amended_comm_of_ne_length (f1 f2 : List (List Char))
    (swapR : Nat)
    (hl1 : ∀ l ∈ f1, l ≠ [] ∧ l.length ≤ SC_MAX_LINE_LENGTH)
    (hl2 : ∀ l ∈ f2, l ≠ [] ∧ l.length ≤ SC_MAX_LINE_LENGTH)
    (hne : f1.length ≠ f2.length) :
    ScLevenshteinSwap f1 f2 swapR = ScLevenshteinSwap f2 f1 swapR := by
  unfold ScLevenshteinSwap scAnchorPair
  rcases Nat.lt_or_ge f1.length f2.length with hlt | hge
  · rw [if_neg (by omega), if_pos hlt]
  · have hgt : f2.length < f1.length := by omega
    rw [if_pos hgt, if_neg (by omega)]

/-- Witness for the amended C3 at a concrete input. -/
theorem claim_C3_amended_comm_of_ne_length_witness :
    ScLevenshteinSwap [['a']] [['a'], ['b']] 3 =
      ScLevenshteinSwap [['a'], ['b']] [['a']] 3 :=
  claim_C3_amended_comm_of_ne_length [['a']] [['a'], ['b']] 3 (by decide)
    (by decide) (by decide)

/-! ## Embedding of the cleansing pipeline (src/Modules/ScCleanseInput.c)

`sc_cleanse_config_t` without the file-extension matchers (not used by the
pipeline itself).  A `GeneralizeRule` group is `(generaliser, generalisees)`.
The C passes mutate the buffer in place; here each pass maps the buffer list
to the new buffer list. -/

structure ScCleanseConfig where
  lineDrops : List (List Char)
  mcStart : List Char
  mcEnd : List Char
  newLineChars : List Char
  generalises : List (List Char × List (List Char))

/-- `ScCleanseDropLine`: blank (to spaces) every character up to, but not
including, the next newline; returns the blanked prefix and the rest (headed
by the newline, if any). -/
def scCleanseDropLine : List Char → List Char × List Char
  | [] => ([], [])
  | c :: rest =>
      if c = '\n' then ([], c :: rest)
      else
        let pr := scCleanseDropLine rest
        (' ' :: pr.1, pr.2)

/-- `ScCleanseMultiComment`: blank every character (newlines included) up to
and including the end marker; returns the blanked prefix and the rest. -/
def scCleanseMultiComment (endM : List Char) : List Char → List Char × List Char
  | [] => ([], [])
  | c :: rest =>
      if endM.isPrefixOf (c :: rest) then
        (endM.map fun _ => ' ', (c :: rest).drop endM.length)
      else
        let pr := scCleanseMultiComment endM rest
        (' ' :: pr.1, pr.2)

/-- The scan loop of `ScCleanseLines`.  The fuel counts loop iterations; one
unit per iteration suffices for `buf.length` initial fuel whenever every
iteration consumes at least one character, which holds for every line-drop
prefix that is nonempty and does not begin with a newline (all shipped
configurations).  On the degenerate configurations where the C loop would not
terminate, the model returns the remaining buffer once the fuel is spent. -/
def scCleanseLinesGo (cfg : ScCleanseConfig) : Nat → List Char → List Char
  | 0, buf => buf
  | _, [] => []
  | fuel + 1, c :: rest =>
      if cfg.lineDrops.any (fun p => p.isPrefixOf (c :: rest)) then
        let pr := scCleanseDropLine (c :: rest)
        pr.1 ++ scCleanseLinesGo cfg fuel pr.2
      else if cfg.mcStart.isPrefixOf (c :: rest) ∧ cfg.mcStart ≠ [] then
        let pr := scCleanseMultiComment cfg.mcEnd
          ((c :: rest).drop cfg.mcStart.length)
        (cfg.mcStart.map fun _ => ' ') ++ pr.1 ++ scCleanseLinesGo cfg fuel pr.2
      else c :: scCleanseLinesGo cfg fuel rest

/-- Pass 1, `ScCleanseLines`: comment and line-drop removal. -/
def scCleanseLines (cfg : ScCleanseConfig) (buf : List Char) : List Char :=
  scCleanseLinesGo cfg buf.length buf

/-- First matching generalisee of one group (`Index2` loop). -/
def scFindGee (gees : List (List Char)) (buf : List Char) : Option (List Char) :=
  gees.find? (fun g => g.isPrefixOf buf)

/-- First group with a matching generalisee (`GenIndex` loop): returns its
generaliser and the matched generalisee's length. -/
def scFindGen : List (List Char × List (List Char)) → List Char →
    Option (List Char × Nat)
  | [], _ => none
  | (gr, gees) :: rest, buf =>
      match scFindGee gees buf with
      | some gee => some (gr, gee.length)
      | none => scFindGen rest buf

/-- The scan loop of `ScCleanseGeneralisees`: on a match, overwrite the
generalisee with the generaliser padded by blanks to the generalisee's length
and continue after it (the replacement is not rescanned).  Fuel as in
`scCleanseLinesGo`; a match always consumes `geeLen ≥ 1` characters except in
the degenerate case of an empty generalisee (undefined behaviour in C). -/
def scCleanseGeneraliseesGo (gens : List (List Char × List (List Char))) :
    Nat → List Char → List Char
  | 0, buf => buf
  | _, [] => []
  | fuel + 1, c :: rest =>
      match scFindGen gens (c :: rest) with
      | some (gr, geeLen) =>
          (gr ++ List.replicate (geeLen - gr.length) ' ') ++
            scCleanseGeneraliseesGo gens fuel ((c :: rest).drop geeLen)
      | none => c :: scCleanseGeneraliseesGo gens fuel rest

/-- Pass 2, `ScCleanseGeneralisees`: token generalisation. -/
def scCleanseGeneralisees (gens : List (List Char × List (List Char)))
    (buf : List Char) : List Char :=
  scCleanseGeneraliseesGo gens buf.length buf

/-- The per-character classification of `ScCleanseWhitespacesInLines`:
tab/vertical-tab to blank, carriage return and configured logical-newline
characters to newline, everything else unchanged. -/
def scMapChar (nl : List Char) (c : Char) : Char :=
  if c = '\x0B' ∨ c = '\t' then ' '
  else if c = ' ' then ' '
  else if c = '\r' then '\n'
  else if c = '\n' then '\n'
  else if nl.contains c then '\n'
  else c

/-- Whether a pending newline survives: it is blanked unless a character that
is neither blank nor newline occurs before the next newline (or the end of
the buffer), mirroring the `PreceedingNewLine` pointer protocol. -/
def scKeepNl (rest : List Char) : Bool :=
  match rest.dropWhile (fun c => c = ' ') with
  | [] => false
  | d :: _ => decide (d ≠ '\n')

/-- Resolve every (classified) newline according to `scKeepNl`. -/
def scResolveNl : List Char → List Char
  | [] => []
  | c :: rest =>
      (if c = '\n' then (if scKeepNl rest then '\n' else ' ') else c) ::
        scResolveNl rest

/-- Pass 3, `ScCleanseWhitespacesInLines`: whitespace and newline
normalisation.  The imperative single pass with one unit of lookback state is
the composition of the per-character classification with the newline
resolution above. -/
def scCleanseWhitespacesInLines (nl : List Char) (buf : List Char) :
    List Char :=
  scResolveNl (buf.map (scMapChar nl))

/-- The fragment-compaction loop of `ScCleanseRemoveSpaces`: keep every
maximal run of non-blank characters, dropping all blanks. -/
def scCopyFragments : List Char → List Char
  | [] => []
  | c :: rest =>
      if c = ' ' then scCopyFragments rest else c :: scCopyFragments rest

/-- Pass 4, `ScCleanseRemoveSpaces`.  The C function has two entries: if the
buffer starts with a blank or newline it first skips the leading run of
blanks and newlines (`SourceIndex` loop), then compacts fragments; otherwise
it keeps the blank-free prefix and compacts from the first blank on, which
equals compacting the whole buffer. -/
def scCleanseRemoveSpaces (buf : List Char) : List Char :=
  match buf with
  | [] => []
  | c :: _ =>
      if c = '\n' ∨ c = ' ' then
        scCopyFragments (buf.dropWhile (fun d => d = ' ' ∨ d = '\n'))
      else scCopyFragments buf

/-- `ScCleanseInput`: the four passes in order. -/
def ScCleanseInput (cfg : ScCleanseConfig) (buf : List Char) : List Char :=
  scCleanseRemoveSpaces (scCleanseWhitespacesInLines cfg.newLineChars
    (scCleanseGeneralisees cfg.generalises (scCleanseLines cfg buf)))

/-- `mScCleanseConfigC` (src/CleanseConfigs/ScCleanseConfigC.c). -/
def mScCleanseConfigC : ScCleanseConfig where
  lineDrops := ["//".toList, "#i".toList, "#e".toList]
  mcStart := "/*".toList
  mcEnd := "*/".toList
  newLineChars := [';', '\x7b', '\x7d', '?', ':']
  generalises :=
    [([], ["static".toList, "const".toList, "volatile".toList,
        "restrict".toList, "unsigned".toList, "signed".toList]),
      ("int".toList, ["char".toList, "short".toList, "long".toList,
        "uint64_t".toList, "int64_t".toList, "uint32_t".toList,
        "int32_t".toList, "uint16_t".toList, "int16_t".toList,
        "uint8_t".toList, "int8_t".toList, "size_t".toList,
        "uintptr_t".toList, "float".toList, "double".toList])]

/-- `mScCleanseConfigUnknown` (src/CleanseConfigs/ScCleanseConfigUnknown.c):
every optional feature disabled. -/
def mScCleanseConfigUnknown : ScCleanseConfig where
  lineDrops := []
  mcStart := []
  mcEnd := []
  newLineChars := []
  generalises := []

/-! ### Canonical-form invariants (claim C4)

The invariants asserted at the end of `ScCleanseInput`, together with the
`CanonicalBuffer` conditions of the specification's data model. -/

/-- No two consecutive newline characters. -/
def scNoDoubleNewline : List Char → Bool
  | [] => true
  | [_] => true
  | c :: d :: rest =>
      (if c = '\n' ∧ d = '\n' then false else true) &&
        scNoDoubleNewline (d :: rest)

/-- Line splitting at newline characters (the reading of a buffer used by
`ScStrGetLineInfo`: one line per newline-separated segment). -/
def scSplitLines : List Char → List (List Char)
  | [] => [[]]
  | c :: rest =>
      if c = '\n' then [] :: scSplitLines rest
      else
        match scSplitLines rest with
        | [] => [[c]]
        | l :: ls => (c :: l) :: ls

/-- Spec-side canonical form: no blanks at all (hence no leading or trailing
whitespace), no leading newline, no consecutive newlines, no trailing
newline, and (for a nonempty buffer) no empty line. -/
def ScCanonical (out : List Char) : Prop :=
  (∀ c ∈ out, c ≠ ' ') ∧
  (∀ c, out.head? = some c → c ≠ '\n' ∧ c ≠ ' ') ∧
  scNoDoubleNewline out = true ∧
  out.getLast? ≠ some '\n' ∧
  (out ≠ [] → ∀ line ∈ scSplitLines out, line ≠ [])

/-- First non-blank character ahead exists and is not a newline. -/
def scContentAhead : List Char → Bool
  | [] => false
  | c :: rest => if c = ' ' then scContentAhead rest else decide (c ≠ '\n')

/-- Every newline is followed, before the next newline, by a character that is
neither blank nor newline. -/
def scNlOk : List Char → Bool
  | [] => true
  | c :: rest =>
      (if c = '\n' then scContentAhead rest else true) && scNlOk rest

theorem scNlOk_tail (c : Char) (rest : List Char)
    (h : scNlOk (c :: rest) = true) : scNlOk rest = true := by
  rw [scNlOk, Bool.and_eq_true] at h
  exact h.2

theorem scNlOk_dropWhile (p : Char → Bool) : ∀ (l : List Char),
    scNlOk l = true → scNlOk (l.dropWhile p) = true := by
  intro l
  induction l with
  | nil => intro h; exact h
  | cons c rest ih =>
      intro h
      rw [List.dropWhile_cons]
      by_cases hp : p c = true
      · rw [if_pos hp]
        exact ih (scNlOk_tail c rest h)
      · rw [if_neg hp]
        exact h

/-- If a pending newline is kept, the resolved remainder has content ahead. -/
theorem scKeepNl_contentAhead : ∀ (rest : List Char), scKeepNl rest = true →
    scContentAhead (scResolveNl rest) = true := by
  intro rest
  induction rest with
  | nil => intro h; simp [scKeepNl] at h
  | cons c r ih =>
      intro h
      rw [scResolveNl]
      by_cases hc : c = ' '
      · subst hc
        rw [scKeepNl, List.dropWhile_cons, if_pos (by simp)] at h
        rw [if_neg (by decide)]
        rw [scContentAhead, if_pos rfl]
        exact ih h
      · rw [scKeepNl, List.dropWhile_cons, if_neg (by simp [hc])] at h
        have hcn : c ≠ '\n' := by
          intro hEq
          rw [hEq] at h
          simp at h
        rw [if_neg hcn, scContentAhead, if_neg hc]
        simp [hcn]

/-- The newline-resolution pass establishes `scNlOk`. -/
theorem scResolveNl_nlOk : ∀ (l : List Char),
    scNlOk (scResolveNl l) = true := by
  intro l
  induction l with
  | nil => rfl
  | cons c rest ih =>
      rw [scResolveNl]
      by_cases hc : c = '\n'
      · rw [if_pos hc]
        by_cases hk : scKeepNl rest = true
        · rw [if_pos hk, scNlOk, if_pos rfl, Bool.and_eq_true]
          exact ⟨scKeepNl_contentAhead rest hk, ih⟩
        · rw [if_neg hk, scNlOk, if_neg (by decide), Bool.true_and]
          exact ih
      · rw [if_neg hc, scNlOk, if_neg hc, Bool.true_and]
        exact ih

theorem mem_scCopyFragments : ∀ (l : List Char) (c : Char),
    c ∈ scCopyFragments l → c ∈ l ∧ c ≠ ' ' := by
  intro l
  induction l with
  | nil => intro c h; simp [scCopyFragments] at h
  | cons d rest ih =>
      intro c h
      rw [scCopyFragments] at h
      by_cases hd : d = ' '
      · rw [if_pos hd] at h
        obtain ⟨h1, h2⟩ := ih c h
        exact ⟨List.mem_cons_of_mem d h1, h2⟩
      · rw [if_neg hd] at h
        rcases List.mem_cons.1 h with h | h
        · subst h; exact ⟨List.mem_cons_self _ _, hd⟩
        · obtain ⟨h1, h2⟩ := ih c h
          exact ⟨List.mem_cons_of_mem d h1, h2⟩

/-- With content ahead, the compacted fragment list starts with that content
character. -/
theorem scContentAhead_head : ∀ (l : List Char), scContentAhead l = true →
    ∃ c, (scCopyFragments l).head? = some c ∧ c ≠ '\n' ∧ c ≠ ' ' := by
  intro l
  induction l with
  | nil => intro h; simp [scContentAhead] at h
  | cons d rest ih =>
      intro h
      rw [scContentAhead] at h
      rw [scCopyFragments]
      by_cases hd : d = ' '
      · rw [if_pos hd] at h ⊢
        exact ih h
      · rw [if_neg hd] at h ⊢
        simp only [decide_eq_true_eq] at h
        exact ⟨d, rfl, h, hd⟩

/-- Fragment compaction of an `scNlOk` buffer leaves no consecutive newlines
and no trailing newline. -/
theorem scCopyFragments_good : ∀ (l : List Char), scNlOk l = true →
    scNoDoubleNewline (scCopyFragments l) = true ∧
      (scCopyFragments l).getLast? ≠ some '\n' := by
  intro l
  induction l with
  | nil => intro _; exact ⟨rfl, by simp [scCopyFragments]⟩
  | cons d rest ih =>
      intro h
      have htail := scNlOk_tail d rest h
      rw [scCopyFragments]
      by_cases hd : d = ' '
      · rw [if_pos hd]
        exact ih htail
      · rw [if_neg hd]
        obtain ⟨ihnd, ihlast⟩ := ih htail
        by_cases hdn : d = '\n'
        · rw [scNlOk, if_pos hdn, Bool.and_eq_true] at h
          obtain ⟨c0, hc0, hc0n, _⟩ := scContentAhead_head rest h.1
          obtain ⟨t, ht⟩ : ∃ t, scCopyFragments rest = c0 :: t := by
            cases hcf : scCopyFragments rest with
            | nil => rw [hcf] at hc0; simp at hc0
            | cons a t =>
                rw [hcf] at hc0
                simp at hc0
                exact ⟨t, by rw [hc0]⟩
          rw [ht]
          constructor
          · rw [scNoDoubleNewline, if_neg (by simp [hc0n]), Bool.true_and]
            rw [← ht]
            exact ihnd
          · rw [List.getLast?_cons_cons, ← ht]
            exact ihlast
        · cases hcf : scCopyFragments rest with
          | nil =>
              exact ⟨rfl, by simp [hdn]⟩
          | cons a t =>
              rw [hcf] at ihnd ihlast
              constructor
              · rw [scNoDoubleNewline, if_neg (by simp [hdn]), Bool.true_and]
                exact ihnd
              · rw [List.getLast?_cons_cons]
                exact ihlast

/-- The head of a fragment compaction is never a blank, and it is not a
newline when the input's head is not. -/
theorem scCopyFragments_head (l : List Char)
    (h : ∀ hd, l.head? = some hd → hd ≠ ' ' ∧ hd ≠ '\n') :
    ∀ c, (scCopyFragments l).head? = some c → c ≠ '\n' ∧ c ≠ ' ' := by
  intro c hc
  cases l with
  | nil => simp [scCopyFragments] at hc
  | cons d rest =>
      have hd := h d rfl
      rw [scCopyFragments, if_neg hd.1] at hc
      simp at hc
      subst hc
      exact ⟨hd.2, hd.1⟩

theorem scNoDoubleNewline_tail (c : Char) : ∀ (rest : List Char),
    scNoDoubleNewline (c :: rest) = true → scNoDoubleNewline rest = true := by
  intro rest h
  cases rest with
  | nil => rfl
  | cons d r =>
      rw [scNoDoubleNewline, Bool.and_eq_true] at h
      exact h.2

theorem scSplitLines_ne_nil (l : List Char) : scSplitLines l ≠ [] := by
  cases l with
  | nil => simp [scSplitLines]
  | cons c rest =>
      rw [scSplitLines]
      by_cases hc : c = '\n'
      · rw [if_pos hc]; simp
      · rw [if_neg hc]
        cases scSplitLines rest <;> simp

/-- A buffer with no leading, trailing or doubled newline has no empty
line. -/
theorem scSplitLines_nonempty : ∀ (l : List Char),
    scNoDoubleNewline l = true → l.getLast? ≠ some '\n' →
    (∀ hd, l.head? = some hd → hd ≠ '\n') → l ≠ [] →
    ∀ line ∈ scSplitLines l, line ≠ [] := by
  intro l
  match l with
  | [] =>
      intro _ _ _ hne
      exact absurd rfl hne
  | [c] =>
      intro _ _ hhd _
      have hc : c ≠ '\n' := hhd c rfl
      rw [scSplitLines, if_neg hc]
      rw [show scSplitLines [] = [[]] from rfl]
      simp
  | c :: d :: r =>
      intro hnd hlast hhd _
      have hc : c ≠ '\n' := hhd c rfl
      have hnd' : scNoDoubleNewline (d :: r) = true :=
        scNoDoubleNewline_tail c (d :: r) hnd
      have hlast' : (d :: r).getLast? ≠ some '\n' := by
        rw [List.getLast?_cons_cons] at hlast
        exact hlast
      by_cases hd : d = '\n'
      · subst hd
        have hr : r ≠ [] := by
          intro h0
          subst h0
          simp at hlast'
        have hndr : scNoDoubleNewline r = true :=
          scNoDoubleNewline_tail _ r hnd'
        have hlastr : r.getLast? ≠ some '\n' := by
          cases r with
          | nil => exact absurd rfl hr
          | cons e t =>
              rw [List.getLast?_cons_cons] at hlast'
              exact hlast'
        have hhdr : ∀ hd, r.head? = some hd → hd ≠ '\n' := by
          intro hd0 hhd0 hcontra
          subst hcontra
          cases r with
          | nil => simp at hhd0
          | cons e t =>
              simp at hhd0
              rw [scNoDoubleNewline, if_pos ⟨rfl, by simp [hhd0]⟩] at hnd'
              simp at hnd'
        have hrec := scSplitLines_nonempty r hndr hlastr hhdr hr
        rw [scSplitLines, if_neg hc]
        rw [show scSplitLines ('\n' :: r) = [] :: scSplitLines r from by
          rw [scSplitLines, if_pos rfl]]
        intro line hline
        rcases List.mem_cons.1 hline with h | h
        · subst h; simp
        · exact hrec line h
      · have hrec := scSplitLines_nonempty (d :: r) hnd' hlast'
          (by intro hd0 h0; simp at h0; subst h0; exact hd) (by simp)
        rw [scSplitLines, if_neg hc]
        cases hsp : scSplitLines (d :: r) with
        | nil => exact absurd hsp (scSplitLines_ne_nil (d :: r))
        | cons L Ls =>
            intro line hline
            rcases List.mem_cons.1 hline with h | h
            · subst h; simp
            · refine hrec line ?_
              rw [hsp]
              exact List.mem_cons_of_mem L h
  termination_by l => l.length

theorem dropWhile_head_false (p : Char → Bool) : ∀ (l : List Char) (d : Char),
    (l.dropWhile p).head? = some d → p d = false := by
  intro l
  induction l with
  | nil => intro d h; simp at h
  | cons c rest ih =>
      intro d h
      rw [List.dropWhile_cons] at h
      by_cases hp : p c = true
      · rw [if_pos hp] at h
        exact ih d h
      · rw [if_neg hp] at h
        simp at h
        subst h
        exact Bool.eq_false_iff.2 hp

/-- Fragment compaction of an `scNlOk` buffer whose head is neither blank nor
newline is canonical. -/
theorem scCopyFragments_canonical (l : List Char) (hnl : scNlOk l = true)
    (hh : ∀ hd, l.head? = some hd → hd ≠ ' ' ∧ hd ≠ '\n') :
    ScCanonical (scCopyFragments l) := by
  obtain ⟨hgood1, hgood2⟩ := scCopyFragments_good l hnl
  refine ⟨fun c hc => (mem_scCopyFragments l c hc).2,
    fun c hc => scCopyFragments_head l hh c hc, hgood1, hgood2, ?_⟩
  intro hne line hline
  exact scSplitLines_nonempty (scCopyFragments l) hgood1 hgood2
    (fun hd h => (scCopyFragments_head l hh hd h).1) hne line hline

/-- Pass 4 applied to any `scNlOk` buffer yields a canonical buffer. -/
theorem scRemoveSpaces_canonical (w : List Char) (hnl : scNlOk w = true) :
    ScCanonical (scCleanseRemoveSpaces w) := by
  cases w with
  | nil =>
      rw [show scCleanseRemoveSpaces [] = [] from rfl]
      exact ⟨by simp, by simp, rfl, by simp, fun h => absurd rfl h⟩
  | cons c rest =>
      rw [scCleanseRemoveSpaces]
      by_cases hc : c = '\n' ∨ c = ' '
      · rw [if_pos hc]
        apply scCopyFragments_canonical
        · exact scNlOk_dropWhile _ _ hnl
        · intro hd hhd
          have := dropWhile_head_false _ _ hd hhd
          simp at this
          exact ⟨this.1, this.2⟩
      · rw [if_neg hc]
        apply scCopyFragments_canonical _ hnl
        intro hd hhd
        simp at hhd
        subst hhd
        push_neg at hc
        exact ⟨hc.2, hc.1⟩

/-- **C4.** For every non-empty input buffer and every cleansing
configuration, the buffer produced by `ScCleanseInput` satisfies all
canonical-form invariants: no blanks (hence no leading or trailing
whitespace), no leading newline, no two consecutive newlines, no trailing
newline, and every line of a nonempty output is non-empty — the assertions at
the end of `ScCleanseInput` can never fail. -/
theorem claim_C4_cleansing_invariants (cfg : ScCleanseConfig)
    (buf : List Char) (hne : buf ≠ []) :
    ScCanonical (ScCleanseInput cfg buf) := by
  unfold ScCleanseInput scCleanseWhitespacesInLines
  exact scRemoveSpaces_canonical _ (scResolveNl_nlOk _)

/-- Witness for C4 at a concrete input. -/
theorem claim_C4_cleansing_invariants_witness :
    ScCanonical (ScCleanseInput mScCleanseConfigC
      "int   x ;  // note\n".toList) :=
  claim_C4_cleansing_invariants mScCleanseConfigC
    "int   x ;  // note\n".toList (by decide)

/-- Counterexample for C8: cleansing `"int   x ;  // note\n"` under the C
profile does not yield `"x"` — the token `int` is the generaliser (emitted
as-is, never deleted) and space compaction joins the surviving fragments. -/
theorem claim_C8_counterexample :
    ScCleanseInput mScCleanseConfigC "int   x ;  // note\n".toList ≠
      "x".toList := by decide

/-- **C8 (amended).** Cleansing the 19-character buffer
`"int   x ;  // note\n"` with the C configuration yields a buffer whose
entire content is the single line `"intx"`: the line-drop prefix erases the
comment, `;` terminates the statement as a logical newline, `int` survives as
the generaliser, and space compaction removes every blank between the
fragments. -/
theorem claim_C8_amended_cleanse_literal :
    ScCleanseInput mScCleanseConfigC "int   x ;  // note\n".toList =
      "intx".toList := by decide

/-! ### Idempotence (claim C7) -/

/-- Counterexample for C7: `"//"` is itself the cleansing output of the
buffer `"/ /"` under the C configuration (space compaction fuses the two
slashes into a line-drop prefix), yet cleansing it again empties it. -/
theorem claim_C7_counterexample :
    ScCleanseInput mScCleanseConfigC "/ /".toList = "//".toList ∧
      ScCleanseInput mScCleanseConfigC "//".toList ≠ "//".toList :=
  ⟨by decide, by decide⟩

theorem scCleanseLinesGo_id (cfg : ScCleanseConfig)
    (hdrop : cfg.lineDrops = []) (hmc : cfg.mcStart = []) :
    ∀ (buf : List Char) (fuel : Nat), scCleanseLinesGo cfg fuel buf = buf := by
  intro buf
  induction buf with
  | nil => intro fuel; cases fuel <;> rfl
  | cons c rest ih =>
      intro fuel
      cases fuel with
      | zero => rfl
      | succ f =>
          rw [scCleanseLinesGo]
          rw [if_neg (by rw [hdrop]; simp)]
          rw [if_neg (by rw [hmc]; simp)]
          rw [ih f]

theorem scCleanseGeneraliseesGo_id : ∀ (buf : List Char) (fuel : Nat),
    scCleanseGeneraliseesGo [] fuel buf = buf := by
  intro buf
  induction buf with
  | nil => intro fuel; cases fuel <;> rfl
  | cons c rest ih =>
      intro fuel
      cases fuel with
      | zero => rfl
      | succ f =>
          rw [scCleanseGeneraliseesGo]
          rw [show scFindGen [] (c :: rest) = none from rfl]
          rw [ih f]

/-- Every character of a resolved buffer is a character of the input or a
blank. -/
theorem mem_scResolveNl : ∀ (l : List Char) (c : Char),
    c ∈ scResolveNl l → c ∈ l ∨ c = ' ' := by
  intro l
  induction l with
  | nil => intro c h; simp [scResolveNl] at h
  | cons d rest ih =>
      intro c h
      rw [scResolveNl] at h
      rcases List.mem_cons.1 h with h | h
      · by_cases hd : d = '\n'
        · rw [if_pos hd] at h
          by_cases hk : scKeepNl rest = true
          · rw [if_pos hk] at h
            subst h
            exact Or.inl (by rw [hd]; simp)
          · rw [if_neg hk] at h
            exact Or.inr h
        · rw [if_neg hd] at h
          subst h
          exact Or.inl (by simp)
      · rcases ih c h with h | h
        · exact Or.inl (List.mem_cons_of_mem d h)
        · exact Or.inr h

/-- The per-character classification is idempotent. -/
theorem scMapChar_idem (nl : List Char) (c : Char) :
    scMapChar nl (scMapChar nl c) = scMapChar nl c := by
  unfold scMapChar
  by_cases h1 : c = '\x0B' ∨ c = '\t'
  · rw [if_pos h1]
    simp
  · rw [if_neg h1]
    by_cases h2 : c = ' '
    · rw [if_pos h2]
      simp
    · rw [if_neg h2]
      by_cases h3 : c = '\r'
      · rw [if_pos h3]
        simp
      · rw [if_neg h3]
        by_cases h4 : c = '\n'
        · rw [if_pos h4]
          simp
        · rw [if_neg h4]
          by_cases h5 : nl.contains c
          · rw [if_pos h5]
            simp
          · rw [if_neg h5]
            rw [if_neg h1, if_neg h2, if_neg h3, if_neg h4, if_neg h5]

/-- A blank is a fixed point of the classification. -/
theorem scMapChar_space (nl : List Char) : scMapChar nl ' ' = ' ' := by
  unfold scMapChar
  simp

theorem map_fix_eq (f : Char → Char) : ∀ (l : List Char),
    (∀ c ∈ l, f c = c) → l.map f = l := by
  intro l
  induction l with
  | nil => intro _; rfl
  | cons c rest ih =>
      intro h
      rw [List.map_cons, h c (by simp), ih (fun d hd => h d (by simp [hd]))]

/-- Characters survive pass 4 only from the input. -/
theorem mem_scCleanseRemoveSpaces (w : List Char) (c : Char)
    (h : c ∈ scCleanseRemoveSpaces w) : c ∈ w := by
  cases w with
  | nil => simp [scCleanseRemoveSpaces] at h
  | cons d rest =>
      rw [scCleanseRemoveSpaces] at h
      by_cases hd : d = '\n' ∨ d = ' '
      · rw [if_pos hd] at h
        have h1 := (mem_scCopyFragments _ c h).1
        exact (List.dropWhile_sublist _).subset h1
      · rw [if_neg hd] at h
        exact (mem_scCopyFragments _ c h).1

/-- Newline resolution is the identity on blank-free buffers with no doubled
and no trailing newline. -/
theorem scResolveNl_id : ∀ (l : List Char), (∀ c ∈ l, c ≠ ' ') →
    scNoDoubleNewline l = true → l.getLast? ≠ some '\n' →
    scResolveNl l = l := by
  intro l
  induction l with
  | nil => intro _ _ _; rfl
  | cons c rest ih =>
      intro hs hnd hlast
      have htail : scResolveNl rest = rest := by
        apply ih (fun d hd => hs d (by simp [hd]))
          (scNoDoubleNewline_tail c rest hnd)
        cases rest with
        | nil => simp
        | cons d t =>
            rw [List.getLast?_cons_cons] at hlast
            exact hlast
      rw [scResolveNl, htail]
      by_cases hc : c = '\n'
      · rw [if_pos hc]
        cases rest with
        | nil =>
            rw [hc] at hlast
            simp at hlast
        | cons d t =>
            have hd : d ≠ ' ' := hs d (by simp)
            have hdn : d ≠ '\n' := by
              intro hEq
              rw [scNoDoubleNewline, if_pos ⟨hc, hEq⟩] at hnd
              simp at hnd
            rw [show scKeepNl (d :: t) = true from by
              rw [scKeepNl, List.dropWhile_cons, if_neg (by simp [hd])]
              simp [hdn]]
            rw [hc]
            simp
      · rw [if_neg hc]

/-- Fragment compaction is the identity on blank-free buffers. -/
theorem scCopyFragments_id : ∀ (l : List Char), (∀ c ∈ l, c ≠ ' ') →
    scCopyFragments l = l := by
  intro l
  induction l with
  | nil => intro _; rfl
  | cons c rest ih =>
      intro h
      rw [scCopyFragments, if_neg (h c (by simp)),
        ih (fun d hd => h d (by simp [hd]))]

/-- Pass 4 is the identity on canonical buffers. -/
theorem scCleanseRemoveSpaces_id (l : List Char) (h : ScCanonical l) :
    scCleanseRemoveSpaces l = l := by
  obtain ⟨hs, hh, _, _, _⟩ := h
  cases l with
  | nil => rfl
  | cons c rest =>
      have hc := hh c rfl
      rw [scCleanseRemoveSpaces, if_neg (by simp [hc.1, hc.2])]
      exact scCopyFragments_id _ hs

/-- **C7 (amended).** For every cleansing configuration with no line-drop
prefixes, no multi-line-comment markers and no generalisation groups (such as
the "unknown" profile), cleansing is idempotent: re-cleansing any cleansing
output changes neither contents nor length.  (With such features enabled this
fails: see the counterexample, where space compaction creates a new comment
marker.) -/
theorem claim_C7_amended_idempotent_featureless (cfg : ScCleanseConfig)
    (hdrop : cfg.lineDrops = []) (hmc : cfg.mcStart = [])
    (hgen : cfg.generalises = []) (buf : List Char) (hne : buf ≠ []) :
    ScCleanseInput cfg (ScCleanseInput cfg buf) = ScCleanseInput cfg buf := by
  have hcanon : ScCanonical (ScCleanseInput cfg buf) := by
    unfold ScCleanseInput scCleanseWhitespacesInLines
    exact scRemoveSpaces_canonical _ (scResolveNl_nlOk _)
  obtain ⟨hs, hh, hnd, hlast, _⟩ := hcanon
  have hfix : ∀ c ∈ ScCleanseInput cfg buf,
      scMapChar cfg.newLineChars c = c := by
    intro c hc
    have hcs : c ≠ ' ' := hs c hc
    have hmem : c ∈ scCleanseWhitespacesInLines cfg.newLineChars
        (scCleanseGeneralisees cfg.generalises (scCleanseLines cfg buf)) :=
      mem_scCleanseRemoveSpaces _ c hc
    unfold scCleanseWhitespacesInLines at hmem
    rcases mem_scResolveNl _ c hmem with h | h
    · obtain ⟨d, _, hd⟩ := List.mem_map.1 h
      rw [← hd, scMapChar_idem]
    · exact absurd h hcs
  conv_lhs => rw [ScCleanseInput]
  rw [scCleanseLines, scCleanseLinesGo_id cfg hdrop hmc]
  rw [hgen, scCleanseGeneralisees, scCleanseGeneraliseesGo_id]
  rw [scCleanseWhitespacesInLines, map_fix_eq _ _ hfix]
  rw [scResolveNl_id _ hs hnd hlast]
  exact scCleanseRemoveSpaces_id _ ⟨hs, hh, hnd, hlast, by
    intro hne0 line hline
    exact scSplitLines_nonempty _ hnd hlast
      (fun hd h => (hh hd h).1) hne0 line hline⟩

/-- Witness for the amended C7 at a concrete input. -/
theorem claim_C7_amended_idempotent_featureless_witness :
    ScCleanseInput mScCleanseConfigUnknown
        (ScCleanseInput mScCleanseConfigUnknown "a b\n\nc\n".toList) =
      ScCleanseInput mScCleanseConfigUnknown "a b\n\nc\n".toList :=
  claim_C7_amended_idempotent_featureless mScCleanseConfigUnknown rfl rfl rfl
    "a b\n\nc\n".toList (by decide)

/-! ## Embedding of `ScCustomSafeMul32` (src/Modules/ScSafeInt.c)

The C function widens both 32-bit operands to `uint64_t`, multiplies exactly
(the product of two 32-bit values fits in 64 bits), stores the low 32 bits,
and returns `InfPrecResult > SIZE_MAX`.  On the LP64 platform model
`SIZE_MAX = 2 ^ 64 - 1 = scSizeMax`. -/

/-- `ScCustomSafeMul32(A, B, &Result)`: `(stored result, returned flag)`. -/
def ScCustomSafeMul32 (a b : Nat) : Nat × Bool :=
  (a * b % 2 ^ 32, decide (a * b > scSizeMax))

/-- **C9 (code bug).** On an LP64 platform, `ScCustomSafeMul32` compares the
exact 64-bit product against `SIZE_MAX` instead of `UINT32_MAX`, so at
`A = B = 0x10000` the product `2 ^ 32` exceeds `0xFFFFFFFF`, the stored
result `0` differs from the product, yet the overflow flag is `false` —
contradicting the function's own documentation (`@returns Whether *Result is
not equal to A * B`) and the specification's safe-arithmetic contract. -/
theorem claim_C9_safe_mul32_bug :
    (ScCustomSafeMul32 65536 65536).1 = 0 ∧
    (ScCustomSafeMul32 65536 65536).2 = false ∧
    65536 * 65536 > 0xFFFFFFFF ∧
    (ScCustomSafeMul32 65536 65536).1 ≠ 65536 * 65536 := by
  refine ⟨by decide, ?_, by decide, by decide⟩
  show decide (65536 * 65536 > scSizeMax) = false
  rw [show scSizeMax = 2 ^ 64 - 1 from rfl]
  decide

/-! ## Embedding of the triangular pair indexing (src/EntryPoints/ScMain.c) -/

/-- `SC_GAUSS_SUM(x) = (x * (x + 1)) / 2`. -/
def SC_GAUSS_SUM (x : Nat) : Nat := x * (x + 1) / 2

/-- Flat `Ratings` index of pair `(i, j)`, `i < j`:
`File1DistStart + File2Index` where
`File1DistStart = SC_GAUSS_SUM(N-1) - SC_GAUSS_SUM(FilesLeft)`,
`FilesLeft = N-1-i`, and `File2Index = j - (i+1)`. -/
def scPairFlatIdx (n i j : Nat) : Nat :=
  (SC_GAUSS_SUM (n - 1) - SC_GAUSS_SUM (n - 1 - i)) + (j - (i + 1))

/-- Anchor-major enumeration of all pairs `(i, j)`, `i < j < n`, as walked by
both the parallel scoring loop and the serial emission loop of `main`. -/
def scPairEnum (n : Nat) : List (Nat × Nat) :=
  (List.range n).flatMap
    (fun i => (List.range' (i + 1) (n - (i + 1))).map (fun j => (i, j)))

theorem two_mul_gauss (k : Nat) : 2 * SC_GAUSS_SUM k = k * (k + 1) := by
  unfold SC_GAUSS_SUM
  have heven : 2 ∣ k * (k + 1) := (Nat.even_mul_succ_self k).two_dvd
  omega

theorem gauss_succ (k : Nat) :
    SC_GAUSS_SUM (k + 1) = SC_GAUSS_SUM k + (k + 1) := by
  have h1 := two_mul_gauss (k + 1)
  have h2 := two_mul_gauss k
  have h3 : (k + 1) * (k + 1 + 1) = k * (k + 1) + 2 * (k + 1) := by ring
  omega

theorem gauss_mono (k m : Nat) (h : k ≤ m) :
    SC_GAUSS_SUM k ≤ SC_GAUSS_SUM m := by
  induction m with
  | zero =>
      have : k = 0 := by omega
      subst this
      exact le_refl _
  | succ m ih =>
      rcases Nat.lt_or_ge k (m + 1) with hlt | hge
      · have := ih (by omega)
        rw [gauss_succ]
        omega
      · have : k = m + 1 := by omega
        subst this
        exact le_refl _

/-- Shifting a `range'` by its own start. -/
theorem map_range'_sub : ∀ (m s b : Nat),
    (List.range' s m).map (fun j => b + (j - s)) = List.range' b m := by
  intro m
  induction m with
  | zero => intro s b; rfl
  | succ m ih =>
      intro s b
      have h1 : List.range' s (m + 1) = s :: List.range' (s + 1) m := by
        have := List.range'_succ s m 1
        simpa using this
      have h2 : List.range' b (m + 1) = b :: List.range' (b + 1) m := by
        have := List.range'_succ b m 1
        simpa using this
      rw [h1, h2, List.map_cons]
      congr 1
      · omega
      · rw [← ih (s + 1) (b + 1)]
        apply List.map_congr_left
        intro j hj
        have := (List.mem_range'_1).1 hj
        omega

/-- Monotonicity of block starts under the block-step law. -/
theorem block_start_le (b l : Nat → Nat)
    (hstep : ∀ i, b (i + 1) = b i + l i) : ∀ (i k : Nat), b i ≤ b (i + k) := by
  intro i k
  induction k with
  | zero => exact le_refl _
  | succ k ih =>
      have := hstep (i + k)
      rw [show i + (k + 1) = i + k + 1 from rfl, this]
      omega

/-- Concatenating consecutive `range'` blocks. -/
theorem flatMap_range'_blocks (b l : Nat → Nat)
    (hstep : ∀ i, b (i + 1) = b i + l i) : ∀ (m s : Nat),
    (List.range' s m).flatMap (fun i => List.range' (b i) (l i)) =
      List.range' (b s) (b (s + m) - b s) := by
  intro m
  induction m with
  | zero => intro s; simp
  | succ m ih =>
      intro s
      have h1 : List.range' s (m + 1) = s :: List.range' (s + 1) m := by
        have := List.range'_succ s m 1
        simpa using this
      rw [h1, List.flatMap_cons, ih (s + 1)]
      have hb1 : b (s + 1) = b s + l s := hstep s
      have hb2 : b (s + 1) ≤ b (s + 1 + m) := block_start_le b l hstep (s + 1) m
      have happ := List.range'_append (b s) (l s) (b (s + 1 + m) - b (s + 1)) 1
      simp only [one_mul] at happ
      rw [hb1] at happ hb2
      rw [hb1, happ, show s + (m + 1) = s + 1 + m from by omega]
      congr 1
      omega

/-- The block-step law for the triangular offsets of `main`. -/
theorem scBlockStep (n : Nat) : ∀ i,
    SC_GAUSS_SUM (n - 1) - SC_GAUSS_SUM (n - 1 - (i + 1)) =
      (SC_GAUSS_SUM (n - 1) - SC_GAUSS_SUM (n - 1 - i)) + (n - (i + 1)) := by
  intro i
  by_cases h : i + 1 < n
  · have key : SC_GAUSS_SUM (n - 1 - i) =
        SC_GAUSS_SUM (n - 1 - (i + 1)) + (n - (i + 1)) := by
      rw [show n - 1 - i = (n - 1 - (i + 1)) + 1 from by omega, gauss_succ]
      omega
    have hm : SC_GAUSS_SUM (n - 1 - i) ≤ SC_GAUSS_SUM (n - 1) :=
      gauss_mono _ _ (by omega)
    omega
  · rw [show n - 1 - i = 0 from by omega, show n - 1 - (i + 1) = 0 from by omega]
    omega

/-- Anchor-major enumeration maps, under the flat triangular index, exactly
onto `0, 1, 2, …, N(N−1)/2 − 1` in order. -/
theorem scPairEnum_map_eq (n : Nat) :
    (scPairEnum n).map (fun p => scPairFlatIdx n p.1 p.2) =
      List.range (SC_GAUSS_SUM (n - 1)) := by
  unfold scPairEnum
  rw [List.map_flatMap]
  have hinner : (fun i => ((List.range' (i + 1) (n - (i + 1))).map
      (fun j => (i, j))).map (fun p => scPairFlatIdx n p.1 p.2)) =
      (fun i => List.range'
        ((fun i => SC_GAUSS_SUM (n - 1) - SC_GAUSS_SUM (n - 1 - i)) i)
        ((fun i => n - (i + 1)) i)) := by
    funext i
    rw [List.map_map]
    have hfun : ((fun p => scPairFlatIdx n p.1 p.2) ∘ fun j => (i, j)) =
        fun j => (SC_GAUSS_SUM (n - 1) - SC_GAUSS_SUM (n - 1 - i)) +
          (j - (i + 1)) := by
      funext j
      rfl
    rw [hfun]
    exact map_range'_sub (n - (i + 1)) (i + 1) _
  rw [hinner]
  rw [List.range_eq_range' n]
  rw [flatMap_range'_blocks _ _ (scBlockStep n) n 0]
  rw [show n - 1 - 0 = n - 1 from rfl]
  rw [Nat.sub_self]
  rw [show n - 1 - (0 + n) = 0 from by omega]
  rw [show SC_GAUSS_SUM 0 = 0 from rfl]
  rw [List.range_eq_range' (SC_GAUSS_SUM (n - 1))]
  congr 1

theorem scPairEnum_mem (n i j : Nat) :
    (i, j) ∈ scPairEnum n ↔ i < j ∧ j < n := by
  unfold scPairEnum
  rw [List.mem_flatMap]
  constructor
  · rintro ⟨a, ha, hmem⟩
    rw [List.mem_map] at hmem
    obtain ⟨x, hx, hxy⟩ := hmem
    injection hxy with h1 h2
    subst h1
    subst h2
    have := List.mem_range'_1.1 hx
    omega
  · rintro ⟨hij, hjn⟩
    refine ⟨i, List.mem_range.2 (by omega), List.mem_map.2
      ⟨j, List.mem_range'_1.2 ⟨by omega, by omega⟩, rfl⟩⟩

/-- **C6.** For every `N ≥ 2` the closed-form triangular pair index of the
driver is a bijection from `{(i, j) : i < j < N}` onto
`[0, N(N−1)/2)`, and enumerating pairs in anchor-major order visits the flat
indices `0, 1, 2, …` consecutively — the parallel scoring loop and the serial
emission loop address the same slot for the same pair. -/
theorem claim_C6_pair_index_bijection (n : Nat) (hn : 2 ≤ n) :
    ((scPairEnum n).map (fun p => scPairFlatIdx n p.1 p.2) =
      List.range (SC_GAUSS_SUM (n - 1))) ∧
    (∀ i j, (i, j) ∈ scPairEnum n ↔ i < j ∧ j < n) ∧
    (∀ p ∈ scPairEnum n, ∀ q ∈ scPairEnum n,
      scPairFlatIdx n p.1 p.2 = scPairFlatIdx n q.1 q.2 → p = q) ∧
    SC_GAUSS_SUM (n - 1) = n * (n - 1) / 2 := by
  refine ⟨scPairEnum_map_eq n, scPairEnum_mem n, ?_, ?_⟩
  · have hnd : ((scPairEnum n).map (fun p => scPairFlatIdx n p.1 p.2)).Nodup := by
      rw [scPairEnum_map_eq n]
      exact List.nodup_range _
    exact List.inj_on_of_nodup_map hnd
  · have h2 := two_mul_gauss (n - 1)
    have h3 : (n - 1) * (n - 1 + 1) = n * (n - 1) := by
      rw [show n - 1 + 1 = n from by omega]
      exact Nat.mul_comm _ _
    omega

/-- Witness for C6 at `N = 4`. -/
theorem claim_C6_pair_index_bijection_witness :
    ((scPairEnum 4).map (fun p => scPairFlatIdx 4 p.1 p.2) =
      List.range (SC_GAUSS_SUM 3)) ∧
    (∀ i j, (i, j) ∈ scPairEnum 4 ↔ i < j ∧ j < 4) ∧
    (∀ p ∈ scPairEnum 4, ∀ q ∈ scPairEnum 4,
      scPairFlatIdx 4 p.1 p.2 = scPairFlatIdx 4 q.1 q.2 → p = q) ∧
    SC_GAUSS_SUM 3 = 4 * 3 / 2 :=
  claim_C6_pair_index_bijection 4 (by decide)

end SimilarityChecker
